import Mathlib

/-!
Verification of the Blender-to-Urho asset pipeline against its specification.

Each Python module under scrutiny is shallowly embedded as Lean definitions:
pure functions become Lean functions, stateful code becomes explicit state
passing, Python floats are modelled as exact rationals (`ℚ`), fallible code
returns `Option`/`Except`.  Python strings are modelled either as Lean
`String` (which in this toolchain is a structure over `List Char`) or as
`List Char` where character-level reasoning is needed.
-/

namespace NameParser

/-! ### Embedding of `src/core/name_parser.py`

Python `str` is modelled as `List Char`.  `pySplit` embeds `str.split('_')`
and `pyJoin` embeds `'_'.join(...)`. -/

/-- `str.split(sep)` for a single-character separator: always returns a
nonempty list of (possibly empty) segments. -/
def pySplit : List Char → List (List Char)
  | [] => [[]]
  | c :: rest =>
    match pySplit rest with
    | [] => [[]]
    | h :: t => if c = '_' then [] :: h :: t else (c :: h) :: t

/-- `sep.join(parts)` for a single-character separator. -/
def pyJoin (sep : Char) : List (List Char) → List Char
  | [] => []
  | [x] => x
  | x :: y :: t => x ++ sep :: pyJoin sep (y :: t)

theorem pySplit_ne_nil (s : List Char) : pySplit s ≠ [] := by
  cases s with
  | nil => simp [pySplit]
  | cons c rest =>
    simp only [pySplit]
    cases pySplit rest with
    | nil => simp
    | cons h t =>
      by_cases hc : c = '_' <;> simp [hc]

/-- Joining the split of a string recovers the string (Python round trip). -/
theorem pyJoin_pySplit (s : List Char) : pyJoin '_' (pySplit s) = s := by
  induction s with
  | nil => simp [pySplit, pyJoin]
  | cons c rest ih =>
    simp only [pySplit]
    rcases hsp : pySplit rest with _ | ⟨h, t⟩
    · exact absurd hsp (pySplit_ne_nil rest)
    · rw [hsp] at ih
      by_cases hc : c = '_'
      · subst hc
        simp only [if_pos rfl]
        cases t with
        | nil => simpa [pyJoin] using ih
        | cons y t' => simpa [pyJoin] using ih
      · simp only [if_neg hc]
        cases t with
        | nil => simpa [pyJoin] using ih
        | cons y t' => simpa [pyJoin] using ih

/-- `KNOWN_SUFFIXES` from `name_parser.py` (all lowercase). -/
def KNOWN_SUFFIXES : List (List Char) :=
  ["nocol".data, "2side".data, "noshadow".data, "alpha".data,
   "occluder".data, "lod1".data, "lod2".data,
   "navmesh".data, "trigger".data, "billboard".data]

/-- `parts[i].lower() in KNOWN_SUFFIXES`. -/
def recognized (seg : List Char) : Bool :=
  (seg.map Char.toLower) ∈ KNOWN_SUFFIXES

/-- The right-to-left scan of `parse_object_name`, expressed on the reversed
tail of the segment list: count the consecutive recognized suffixes, stopping
at the first unrecognized segment.  The loop in the source never touches
index 0, which is reflected by running this on `parts.drop 1` reversed. -/
def countConsumed : List (List Char) → Nat
  | [] => 0
  | seg :: rest => if recognized seg then countConsumed rest + 1 else 0

/-- The set of consumed (lowercased) suffixes, mirroring `found`. -/
def foundSuffixes : List (List Char) → List (List Char)
  | [] => []
  | seg :: rest =>
    if recognized seg then (seg.map Char.toLower) :: foundSuffixes rest else []

/-- Result record mirroring the `ParsedName` dataclass. -/
structure ParsedName where
  clean_name : List Char
  original_name : List Char
  nocol : Bool
  two_side : Bool
  noshadow : Bool
  alpha : Bool
  occluder : Bool
  lod_level : Nat
  navmesh : Bool
  trigger : Bool
  billboard : Bool
deriving Repr, DecidableEq

/-- The value of `suffix_count` after the right-to-left scan. -/
def suffixCount (name : List Char) : Nat :=
  countConsumed ((pySplit name).drop 1).reverse

/-- Embedding of `parse_object_name`. -/
def parse_object_name (name : List Char) : ParsedName :=
  let parts := pySplit name
  let scanned := (parts.drop 1).reverse
  let found := foundSuffixes scanned
  let clean :=
    if suffixCount name = 0 then name
    else pyJoin '_' (parts.take (parts.length - suffixCount name))
  let lod : Nat :=
    if "lod1".data ∈ found then 1 else if "lod2".data ∈ found then 2 else 0
  { clean_name := clean
    original_name := name
    nocol := "nocol".data ∈ found
    two_side := "2side".data ∈ found
    noshadow := "noshadow".data ∈ found
    alpha := "alpha".data ∈ found
    occluder := "occluder".data ∈ found
    lod_level := lod
    navmesh := "navmesh".data ∈ found
    trigger := "trigger".data ∈ found
    billboard := "billboard".data ∈ found }

theorem countConsumed_le (l : List (List Char)) : countConsumed l ≤ l.length := by
  induction l with
  | nil => simp [countConsumed]
  | cons seg rest ih =>
    simp only [countConsumed, List.length_cons]
    by_cases h : recognized seg <;> simp [h] <;> omega

/-- Elements scanned past by `countConsumed` are all recognized. -/
theorem countConsumed_recognized (l : List (List Char)) (i : Nat)
    (hi : i < countConsumed l) : recognized (l.getD i []) = true := by
  induction l generalizing i with
  | nil => simp [countConsumed] at hi
  | cons seg rest ih =>
    simp only [countConsumed] at hi
    by_cases h : recognized seg
    · rw [if_pos h] at hi
      cases i with
      | zero => simpa using h
      | succ j =>
        simp only [List.getD_cons_succ]
        exact ih j (by omega)
    · rw [if_neg h] at hi; omega

/-- `countConsumed` stops exactly at the first unrecognized segment. -/
theorem countConsumed_stop (l : List (List Char))
    (h : countConsumed l < l.length) :
    recognized (l.getD (countConsumed l) []) = false := by
  induction l with
  | nil => simp at h
  | cons seg rest ih =>
    simp only [countConsumed] at *
    by_cases hr : recognized seg
    · rw [if_pos hr] at h ⊢
      simp only [List.length_cons] at h
      simpa using ih (by omega)
    · rw [if_neg hr]
      simpa using hr

theorem countConsumed_of_all (l : List (List Char))
    (h : ∀ seg ∈ l, recognized seg = true) : countConsumed l = l.length := by
  induction l with
  | nil => simp [countConsumed]
  | cons seg rest ih =>
    have hs := h seg (by simp)
    simp only [countConsumed, if_pos hs, List.length_cons]
    rw [ih (fun s hmem => h s (by simp [hmem]))]

/-- Index correspondence between the reversed tail scan and the original
segment list: scanned position `j` is segment `len - 1 - j`. -/
theorem scanned_getD (parts : List (List Char)) (j : Nat)
    (hj : j < parts.length - 1) :
    ((parts.drop 1).reverse.getD j []) = parts.getD (parts.length - 1 - j) [] := by
  have hlen : (parts.drop 1).length = parts.length - 1 := by
    simp
  rw [List.getD_eq_getElem?_getD, List.getD_eq_getElem?_getD]
  rw [List.getElem?_reverse (by rw [hlen]; omega)]
  rw [List.getElem?_drop]
  have hidx : 1 + ((parts.drop 1).length - 1 - j) = parts.length - 1 - j := by
    rw [hlen]; omega
  rw [hidx]

theorem suffixCount_le (name : List Char) :
    suffixCount name ≤ (pySplit name).length - 1 := by
  have h := countConsumed_le ((pySplit name).drop 1).reverse
  simpa [suffixCount] using h

theorem length_pySplit_pos (name : List Char) : 1 ≤ (pySplit name).length :=
  List.length_pos.mpr (pySplit_ne_nil name)

theorem parse_clean_eq (name : List Char) :
    (parse_object_name name).clean_name =
      pyJoin '_' ((pySplit name).take ((pySplit name).length - suffixCount name)) := by
  show (if suffixCount name = 0 then name
        else pyJoin '_' ((pySplit name).take
          ((pySplit name).length - suffixCount name))) = _
  by_cases h0 : suffixCount name = 0
  · rw [if_pos h0, h0, Nat.sub_zero, List.take_of_length_le (le_refl _),
      pyJoin_pySplit]
  · rw [if_neg h0]

/-- C10: `parse_object_name` never consumes the leftmost segment.  The clean
name is the `'_'`-join of the first `k ≥ 1` segments; every dropped segment
(scanned right-to-left) is recognized; scanning stopped at the first
unrecognized segment; and a name whose entire tail consists of recognized
suffix tokens still retains its first segment as the clean name. -/
theorem c10_parse_object_name_spec (name : List Char) :
    (∃ k, 1 ≤ k ∧ k ≤ (pySplit name).length ∧
      (parse_object_name name).clean_name = pyJoin '_' ((pySplit name).take k) ∧
      (∀ j, k ≤ j → j < (pySplit name).length →
        recognized ((pySplit name).getD j []) = true) ∧
      (2 ≤ k → recognized ((pySplit name).getD (k - 1) []) = false)) ∧
    ((∀ j, 1 ≤ j → j < (pySplit name).length →
        recognized ((pySplit name).getD j []) = true) →
      (parse_object_name name).clean_name = (pySplit name).getD 0 []) := by
  classical
  have hlen1 := length_pySplit_pos name
  have hslen : ((pySplit name).drop 1).reverse.length = (pySplit name).length - 1 := by
    simp
  have hcle := suffixCount_le name
  have hsc : countConsumed ((pySplit name).drop 1).reverse = suffixCount name := rfl
  constructor
  · refine ⟨(pySplit name).length - suffixCount name, by omega, by omega,
      parse_clean_eq name, ?_, ?_⟩
    · -- every dropped segment is recognized
      intro j hkj hjlen
      have hj1 : (pySplit name).length - 1 - j < suffixCount name := by omega
      have hscan := countConsumed_recognized ((pySplit name).drop 1).reverse
        ((pySplit name).length - 1 - j) hj1
      rwa [scanned_getD (pySplit name) _ (by omega),
        show (pySplit name).length - 1 - ((pySplit name).length - 1 - j) = j
          by omega] at hscan
    · -- scanning stopped at the first unrecognized segment
      intro h2
      have hstop := countConsumed_stop ((pySplit name).drop 1).reverse
        (by rw [hslen, hsc]; omega)
      rw [hsc] at hstop
      rwa [scanned_getD (pySplit name) _ (by omega),
        show (pySplit name).length - 1 - suffixCount name =
          (pySplit name).length - suffixCount name - 1 by omega] at hstop
  · -- all-recognized tail keeps exactly the first segment
    intro hall
    have hallrev : ∀ seg ∈ ((pySplit name).drop 1).reverse, recognized seg = true := by
      intro seg hmem
      rw [List.mem_reverse] at hmem
      obtain ⟨i, hi, hval⟩ := List.getElem_of_mem hmem
      have hgd : (pySplit name).getD (1 + i) [] = ((pySplit name).drop 1).getD i [] := by
        rw [List.getD_eq_getElem?_getD, List.getD_eq_getElem?_getD,
          List.getElem?_drop]
      have hseg : seg = (pySplit name).getD (1 + i) [] := by
        rw [hgd, List.getD_eq_getElem?_getD, List.getElem?_eq_getElem hi, hval]
        rfl
      rw [hseg]
      have hilen : i < (pySplit name).length - 1 := by
        simpa using hi
      exact hall (1 + i) (by omega) (by omega)
    have hcntfull : suffixCount name = (pySplit name).length - 1 := by
      rw [suffixCount, countConsumed_of_all _ hallrev, hslen]
    rw [parse_clean_eq name, hcntfull,
      show (pySplit name).length - ((pySplit name).length - 1) = 1 by omega]
    rcases hsp : pySplit name with _ | ⟨h, t⟩
    · exact absurd hsp (pySplit_ne_nil name)
    · simp [pyJoin]

end NameParser

namespace BoneWeights

/-! ### Embedding of `_build_bone_weights` from `src/mesh/decompose.py`

Python floats are modelled as `ℚ`.  A weight pair is `(weight, bone_index)`.
Python's stable `list.sort(key=weight, reverse=True)` is modelled by
`List.insertionSort` with the descending relation, which is the stable
descending sort. -/

def MAX_BONES : Nat := 4

/-- The `0.0001` weight threshold. -/
def WEIGHT_EPS : ℚ := 1 / 10000

/-- Descending-by-weight relation used by the Python sort. -/
def wdesc (a b : ℚ × Nat) : Prop := b.1 ≤ a.1

instance : DecidableRel wdesc := fun a b => inferInstanceAs (Decidable (b.1 ≤ a.1))

instance : IsTotal (ℚ × Nat) wdesc := ⟨fun a b => le_total b.1 a.1⟩

instance : IsTrans (ℚ × Nat) wdesc := ⟨fun _ _ _ h1 h2 => le_trans h2 h1⟩

/-- `weights.sort(key=lambda x: x[0], reverse=True)` (stable). -/
def pySortWeightsDesc (l : List (ℚ × Nat)) : List (ℚ × Nat) :=
  l.insertionSort wdesc

/-- The collection loop: for each deform group of the vertex, keep
`(weight, bone_index)` whenever the group maps to a recognized bone and the
weight exceeds the threshold. -/
def collectWeights (groupToBone : List (Nat × Nat)) (groups : List (Nat × ℚ)) :
    List (ℚ × Nat) :=
  groups.filterMap (fun gw =>
    match groupToBone.lookup gw.1 with
    | some b => if WEIGHT_EPS < gw.2 then some (gw.2, b) else none
    | none => none)

/-- Sort descending, keep top 4, renormalize when the total is positive,
zero-pad to 4 slots: the per-vertex body of `_build_bone_weights`. -/
def buildVertexWeights (ws : List (ℚ × Nat)) : List (ℚ × Nat) :=
  let sorted := pySortWeightsDesc ws
  let top := sorted.take MAX_BONES
  let total := (top.map Prod.fst).sum
  let normed := if 0 < total then top.map (fun p => (p.1 / total, p.2)) else top
  normed ++ List.replicate (MAX_BONES - normed.length) (0, 0)

/-- Whole-mesh wrapper: vertices with no surviving weight pair are omitted
from the result (the `if not weights: continue` path). -/
def build_bone_weights (groupToBone : List (Nat × Nat))
    (verts : List (Nat × List (Nat × ℚ))) :
    List (Nat × List (ℚ × Nat)) :=
  verts.filterMap (fun v =>
    let ws := collectWeights groupToBone v.2
    if ws = [] then none else some (v.1, buildVertexWeights ws))

theorem collectWeights_pos (groupToBone : List (Nat × Nat))
    (groups : List (Nat × ℚ)) :
    ∀ p ∈ collectWeights groupToBone groups, 0 < p.1 := by
  intro p hp
  simp only [collectWeights, List.mem_filterMap] at hp
  obtain ⟨gw, _, hmap⟩ := hp
  rcases hlk : groupToBone.lookup gw.1 with _ | b <;> rw [hlk] at hmap
  · simp at hmap
  · by_cases hw : WEIGHT_EPS < gw.2
    · simp only [if_pos hw, Option.some.injEq] at hmap
      have : (0 : ℚ) < WEIGHT_EPS := by norm_num [WEIGHT_EPS]
      rw [← hmap]
      exact lt_trans this hw
    · simp [hw] at hmap

theorem sum_map_div (l : List (ℚ × Nat)) (t : ℚ) :
    ((l.map (fun p => (p.1 / t, p.2))).map Prod.fst).sum =
      (l.map Prod.fst).sum / t := by
  induction l with
  | nil => simp
  | cons a l ih =>
    simp only [List.map_cons, List.map_map, List.sum_cons]
    simp only [List.map_map] at ih
    rw [ih, add_div]

theorem pairwise_replicate_self {α : Type} {R : α → α → Prop} (a : α)
    (h : R a a) (n : Nat) : (List.replicate n a).Pairwise R := by
  induction n with
  | zero => simp
  | succ m ih =>
    rw [List.replicate_succ]
    refine List.Pairwise.cons ?_ ih
    intro b hb
    rw [List.eq_of_mem_replicate hb]
    exact h

theorem sorted_take4_pos (groupToBone : List (Nat × Nat)) (groups : List (Nat × ℚ)) :
    ∀ p ∈ (pySortWeightsDesc (collectWeights groupToBone groups)).take 4, 0 < p.1 := by
  intro p hp
  have hmem : p ∈ pySortWeightsDesc (collectWeights groupToBone groups) :=
    List.mem_of_mem_take hp
  have hmem' : p ∈ collectWeights groupToBone groups :=
    (List.perm_insertionSort wdesc _).mem_iff.mp hmem
  exact collectWeights_pos groupToBone groups p hmem'

/-- C4: for every vertex that `_build_bone_weights` includes in its result,
the output is exactly 4 `(weight, bone_index)` pairs: the surviving input
pairs sorted descending by weight, truncated to the 4 highest weights,
renormalized so the weights sum to 1, and zero-padded with `(0, 0)`. -/
theorem c4_build_bone_weights_spec (groupToBone : List (Nat × Nat))
    (groups : List (Nat × ℚ))
    (hne : collectWeights groupToBone groups ≠ []) :
    (buildVertexWeights (collectWeights groupToBone groups)).length = 4 ∧
    ((buildVertexWeights (collectWeights groupToBone groups)).map Prod.fst).sum = 1 ∧
    List.Sorted wdesc (buildVertexWeights (collectWeights groupToBone groups)) ∧
    buildVertexWeights (collectWeights groupToBone groups) =
      ((pySortWeightsDesc (collectWeights groupToBone groups)).take 4).map
        (fun p => (p.1 /
          (((pySortWeightsDesc (collectWeights groupToBone groups)).take 4).map
            Prod.fst).sum, p.2)) ++
      List.replicate (4 - min 4 (collectWeights groupToBone groups).length)
        ((0 : ℚ), (0 : Nat)) := by
  classical
  set ws := collectWeights groupToBone groups with hws
  set sorted := pySortWeightsDesc ws with hsorted
  set top := sorted.take 4 with htop
  set total := (top.map Prod.fst).sum with htotal
  have hperm : sorted.Perm ws := List.perm_insertionSort wdesc ws
  have hslen : sorted.length = ws.length := hperm.length_eq
  have hsne : sorted ≠ [] := by
    intro h
    apply hne
    have : ws.length = 0 := by rw [← hslen, h]; rfl
    exact List.length_eq_zero.mp this
  have htoppos : ∀ p ∈ top, 0 < p.1 := sorted_take4_pos groupToBone groups
  have htopne : top ≠ [] := by
    rw [htop]
    intro h
    have := List.length_take 4 sorted
    rw [h] at this
    simp only [List.length_nil] at this
    have hl : sorted.length = 0 := by omega
    exact hsne (List.length_eq_zero.mp hl)
  have htotalpos : 0 < total := by
    rw [htotal]
    apply List.sum_pos
    · intro q hq
      simp only [List.mem_map] at hq
      obtain ⟨p, hp, rfl⟩ := hq
      exact htoppos p hp
    · simpa using htopne
  have hbody : buildVertexWeights ws =
      top.map (fun p => (p.1 / total, p.2)) ++
        List.replicate (4 - top.length) ((0 : ℚ), (0 : Nat)) := by
    simp only [buildVertexWeights, MAX_BONES, ← hsorted, ← htop, ← htotal,
      if_pos htotalpos, List.length_map]
  have htoplen : top.length = min 4 ws.length := by
    rw [htop, List.length_take, hslen]
  have htople : top.length ≤ 4 := by omega
  refine ⟨?_, ?_, ?_, ?_⟩
  · rw [hbody]
    simp only [List.length_append, List.length_map, List.length_replicate]
    omega
  · rw [hbody]
    rw [List.map_append, List.sum_append, sum_map_div]
    have hrep : ((List.replicate (4 - top.length) ((0 : ℚ), (0 : Nat))).map
        Prod.fst).sum = 0 := by
      simp [List.map_replicate]
    rw [hrep, ← htotal, div_self (ne_of_gt htotalpos), add_zero]
  · rw [hbody]
    have hsorted_s : List.Sorted wdesc sorted := List.sorted_insertionSort wdesc ws
    have htopsorted : List.Sorted wdesc top := hsorted_s.take
    rw [List.Sorted, List.pairwise_append]
    refine ⟨?_, ?_, ?_⟩
    · refine List.Pairwise.map _ ?_ htopsorted
      intro a b hab
      show b.1 / total ≤ a.1 / total
      exact div_le_div_of_nonneg_right hab (le_of_lt htotalpos)
    · exact pairwise_replicate_self ((0 : ℚ), (0 : Nat)) (le_refl (0 : ℚ)) _
    · intro a ha b hb
      simp only [List.mem_map] at ha
      obtain ⟨p, hp, rfl⟩ := ha
      have hbz : b = ((0 : ℚ), (0 : Nat)) := List.eq_of_mem_replicate hb
      show b.1 ≤ p.1 / total
      rw [hbz]
      exact le_of_lt (div_pos (htoppos p hp) htotalpos)
  · rw [hbody, htoplen]

theorem c4_build_bone_weights_witness :
    (buildVertexWeights (collectWeights [(0, 10), (1, 11)]
      [(0, (1 : ℚ)), (1, 3)])).length = 4 :=
  (c4_build_bone_weights_spec [(0, 10), (1, 11)] [(0, (1 : ℚ)), (1, 3)]
    (by
      simp only [collectWeights, List.filterMap_cons, List.lookup, WEIGHT_EPS]
      norm_num
      exact List.cons_ne_nil _ _)).1

end BoneWeights

namespace Decompose

/-! ### Embedding of the vertex deduplication in `src/mesh/decompose.py`
and `IntermediateVertex.hash_key` from `src/data/intermediate.py`. -/

/-- `IntermediateVertex` with Python floats modelled as `ℚ`. -/
structure IntermediateVertex where
  position : ℚ × ℚ × ℚ := (0, 0, 0)
  normal : Option (ℚ × ℚ × ℚ) := none
  uv : Option (ℚ × ℚ) := none
  uv2 : Option (ℚ × ℚ) := none
  tangent : Option (ℚ × ℚ × ℚ × ℚ) := none
  color : Option (Nat × Nat × Nat × Nat) := none
  bone_weights : Option (List ℚ) := none
  bone_indices : Option (List Nat) := none
  blender_index : Option Nat := none
deriving Repr, DecidableEq, Inhabited

/-- The deduplication key type: (position, normal, uv, uv2, color). -/
abbrev HashKey :=
  (ℚ × ℚ × ℚ) × Option (ℚ × ℚ × ℚ) × Option (ℚ × ℚ) × Option (ℚ × ℚ) ×
    Option (Nat × Nat × Nat × Nat)

instance instDecEqHashKey : DecidableEq HashKey :=
  @instDecidableEqProd _ _ inferInstance
    (@instDecidableEqProd _ _ inferInstance
      (@instDecidableEqProd _ _ inferInstance
        (@instDecidableEqProd _ _ inferInstance inferInstance)))

/-- `IntermediateVertex.hash_key`: bone weights, bone indices and tangent are
not part of the key. -/
def IntermediateVertex.hash_key (v : IntermediateVertex) : HashKey :=
  (v.position, v.normal, v.uv, v.uv2, v.color)

/-- The dedup state inside `decompose_mesh`: the growing vertex list and the
`hash_key -> vertex index` dictionary (modelled as an association list). -/
structure DedupState where
  vertices : List IntermediateVertex
  vertex_map : List (HashKey × Nat)

def emptyState : DedupState := ⟨[], []⟩

/-- One corner: look the key up; on a hit reuse the index, otherwise append
the candidate vertex and record its index. -/
def dedupVertex (st : DedupState) (iv : IntermediateVertex) : DedupState × Nat :=
  match st.vertex_map.lookup iv.hash_key with
  | some idx => (st, idx)
  | none =>
      let idx := st.vertices.length
      (⟨st.vertices ++ [iv], (iv.hash_key, idx) :: st.vertex_map⟩, idx)

/-- Fold `dedupVertex` over a corner stream, collecting assigned indices. -/
def dedupCorners : DedupState → List IntermediateVertex → DedupState × List Nat
  | st, [] => (st, [])
  | st, iv :: rest =>
    let r1 := dedupVertex st iv
    let r2 := dedupCorners r1.1 rest
    (r2.1, r1.2 :: r2.2)

/-- One triangle: deduplicate the three corners in order obtaining
`(a, b, c)`, then store `(a, c, b)` — the winding flip that compensates the
Y/Z axis swap. -/
def processTriangle (st : DedupState) (c0 c1 c2 : IntermediateVertex) :
    DedupState × (Nat × Nat × Nat) :=
  let r1 := dedupVertex st c0
  let r2 := dedupVertex r1.1 c1
  let r3 := dedupVertex r2.1 c2
  (r3.1, (r1.2, r3.2, r2.2))

/-- The triangle loop of `decompose_mesh`: each input triangle carries its
material index and three candidate corner records; the output stream records
the stored index triple per triangle. -/
def decomposeTriangles :
    DedupState → List (Nat × (IntermediateVertex × IntermediateVertex × IntermediateVertex)) →
      DedupState × List (Nat × (Nat × Nat × Nat))
  | st, [] => (st, [])
  | st, (m, cs) :: rest =>
    let r1 := processTriangle st cs.1 cs.2.1 cs.2.2
    let r2 := decomposeTriangles r1.1 rest
    (r2.1, (m, r1.2) :: r2.2)

/-- Flatten a triangle list into the corner stream it visits. -/
def flattenCorners
    (tris : List (Nat × (IntermediateVertex × IntermediateVertex × IntermediateVertex))) :
    List IntermediateVertex :=
  tris.flatMap (fun t => [t.2.1, t.2.2.1, t.2.2.2])

/-- The dictionary invariant: a hit is a valid index whose stored vertex has
that key, and a miss means no stored vertex has the key. -/
def MapInv (st : DedupState) : Prop :=
  ∀ k : HashKey,
    (∀ i, st.vertex_map.lookup k = some i →
      i < st.vertices.length ∧
        (st.vertices.getD i default).hash_key = k) ∧
    (st.vertex_map.lookup k = none →
      ∀ j, j < st.vertices.length →
        (st.vertices.getD j default).hash_key ≠ k)

theorem emptyState_inv : MapInv emptyState := by
  intro k
  constructor
  · intro i hi
    simp [emptyState, List.lookup] at hi
  · intro _ j hj
    simp [emptyState] at hj

theorem getD_append_lt {α : Type} [Inhabited α] (l1 l2 : List α) (j : Nat)
    (h : j < l1.length) : (l1 ++ l2).getD j default = l1.getD j default := by
  rw [List.getD_eq_getElem?_getD, List.getD_eq_getElem?_getD,
    List.getElem?_append_left h]

theorem getD_append_len {α : Type} [Inhabited α] (l : List α) (x : α) :
    (l ++ [x]).getD l.length default = x := by
  rw [List.getD_eq_getElem?_getD, List.getElem?_append_right (le_refl _)]
  simp

/-- Behaviour of a single `dedupVertex` step. -/
theorem dedupVertex_spec (st : DedupState) (iv : IntermediateVertex)
    (hinv : MapInv st) :
    MapInv (dedupVertex st iv).1 ∧
    (dedupVertex st iv).1.vertex_map.lookup iv.hash_key =
      some (dedupVertex st iv).2 ∧
    st.vertices.length ≤ (dedupVertex st iv).1.vertices.length ∧
    (∀ j, j < st.vertices.length →
      (dedupVertex st iv).1.vertices.getD j default = st.vertices.getD j default) ∧
    (∀ k i, st.vertex_map.lookup k = some i →
      (dedupVertex st iv).1.vertex_map.lookup k = some i) ∧
    (∀ i, st.vertices.length ≤ i → i < (dedupVertex st iv).1.vertices.length →
      (dedupVertex st iv).1.vertices.getD i default = iv ∧
      (∀ j, j < st.vertices.length →
        (st.vertices.getD j default).hash_key ≠ iv.hash_key)) := by
  rcases hlk : st.vertex_map.lookup iv.hash_key with _ | idx
  · -- miss: append the vertex
    have hres : dedupVertex st iv =
        (⟨st.vertices ++ [iv], (iv.hash_key, st.vertices.length) :: st.vertex_map⟩,
         st.vertices.length) := by
      simp [dedupVertex, hlk]
    rw [hres]
    have hlknew : ∀ k : HashKey,
        List.lookup k ((iv.hash_key, st.vertices.length) :: st.vertex_map) =
          if iv.hash_key = k then some st.vertices.length
          else st.vertex_map.lookup k := by
      intro k
      by_cases hk : iv.hash_key = k
      · simp [List.lookup, hk]
      · simp only [List.lookup]
        rw [if_neg hk]
        have hbf : (k == iv.hash_key) = false :=
          beq_eq_false_iff_ne.mpr (Ne.symm hk)
        rw [hbf]
    refine ⟨?_, ?_, ?_, ?_, ?_, ?_⟩
    · -- MapInv preserved
      intro k
      constructor
      · intro i hi
        rw [hlknew k] at hi
        by_cases hk : iv.hash_key = k
        · rw [if_pos hk] at hi
          injection hi with hi
          subst hi
          refine ⟨by simp, ?_⟩
          rw [getD_append_len, hk]
        · rw [if_neg hk] at hi
          obtain ⟨hlt, hkey⟩ := (hinv k).1 i hi
          refine ⟨by simp; omega, ?_⟩
          rw [getD_append_lt _ _ _ hlt]
          exact hkey
      · intro hnone j hj
        rw [hlknew k] at hnone
        by_cases hk : iv.hash_key = k
        · rw [if_pos hk] at hnone
          exact absurd hnone (by simp)
        · rw [if_neg hk] at hnone
          simp only [List.length_append, List.length_cons, List.length_nil] at hj
          by_cases hjlt : j < st.vertices.length
          · rw [getD_append_lt _ _ _ hjlt]
            exact (hinv k).2 hnone j hjlt
          · have hj' : j = st.vertices.length := by omega
            rw [hj', getD_append_len]
            exact hk
    · rw [hlknew, if_pos rfl]
    · simp
    · intro j hj
      exact getD_append_lt _ _ _ hj
    · intro k i hki
      rw [hlknew k]
      by_cases hk : iv.hash_key = k
      · rw [← hk] at hki
        rw [hlk] at hki
        exact absurd hki (by simp)
      · rw [if_neg hk]
        exact hki
    · intro i hge hlt
      simp only [List.length_append, List.length_cons, List.length_nil] at hlt
      have hi : i = st.vertices.length := by omega
      subst hi
      refine ⟨getD_append_len _ _, ?_⟩
      intro j hj
      exact (hinv iv.hash_key).2 hlk j hj
  · -- hit: state unchanged
    have hres : dedupVertex st iv = (st, idx) := by
      simp [dedupVertex, hlk]
    rw [hres]
    refine ⟨hinv, hlk, le_refl _, fun j _ => rfl, fun k i h => h, ?_⟩
    intro i hge hlt
    have hlt' : i < st.vertices.length := hlt
    omega

/-- Behaviour of the full dedup run: the invariant is preserved, one index is
assigned per corner, lookups persist, vertex prefixes are stable, every
corner's key maps to its assigned index, and every vertex created during the
run is the first corner carrying its key. -/
theorem dedupCorners_spec (corners : List IntermediateVertex) (st : DedupState)
    (hinv : MapInv st) :
    MapInv (dedupCorners st corners).1 ∧
    (dedupCorners st corners).2.length = corners.length ∧
    st.vertices.length ≤ (dedupCorners st corners).1.vertices.length ∧
    (∀ j, j < st.vertices.length →
      (dedupCorners st corners).1.vertices.getD j default =
        st.vertices.getD j default) ∧
    (∀ k i, st.vertex_map.lookup k = some i →
      (dedupCorners st corners).1.vertex_map.lookup k = some i) ∧
    (∀ p, p < corners.length →
      (dedupCorners st corners).1.vertex_map.lookup
          ((corners.getD p default).hash_key) =
        some ((dedupCorners st corners).2.getD p 0)) ∧
    (∀ i, st.vertices.length ≤ i →
        i < (dedupCorners st corners).1.vertices.length →
      ∃ q, q < corners.length ∧
        (dedupCorners st corners).1.vertices.getD i default =
          corners.getD q default ∧
        (∀ p', p' < q →
          (corners.getD p' default).hash_key ≠
            (corners.getD q default).hash_key) ∧
        (∀ j, j < st.vertices.length →
          (st.vertices.getD j default).hash_key ≠
            (corners.getD q default).hash_key)) := by
  induction corners generalizing st with
  | nil =>
    refine ⟨hinv, rfl, le_refl _, fun j _ => rfl, fun k i h => h, ?_, ?_⟩
    · intro p hp
      simp at hp
    · intro i hge hlt
      have hlt' : i < st.vertices.length := hlt
      omega
  | cons c rest ih =>
    obtain ⟨dinv, dlook, dlen, dpre, dper, dnew⟩ :=
      dedupVertex_spec st c hinv
    obtain ⟨rinv, rlen, rle, rpre, rper, rcor, rnew⟩ :=
      ih (dedupVertex st c).1 dinv
    have hrun : dedupCorners st (c :: rest) =
        ((dedupCorners (dedupVertex st c).1 rest).1,
         (dedupVertex st c).2 :: (dedupCorners (dedupVertex st c).1 rest).2) := by
      rfl
    rw [hrun]
    refine ⟨rinv, by simpa using rlen, le_trans dlen rle, ?_, ?_, ?_, ?_⟩
    · intro j hj
      rw [rpre j (lt_of_lt_of_le hj dlen), dpre j hj]
    · intro k i hki
      exact rper k i (dper k i hki)
    · intro p hp
      cases p with
      | zero =>
        simpa using rper _ _ dlook
      | succ p' =>
        have hp' : p' < rest.length := by simpa using hp
        simpa using rcor p' hp'
    · intro i hge hlt
      by_cases hmid : i < (dedupVertex st c).1.vertices.length
      · -- the vertex was created by corner `c` itself (or existed before)
        obtain ⟨hvi, hfresh⟩ := dnew i hge hmid
        refine ⟨0, by simp, ?_, ?_, ?_⟩
        · rw [rpre i hmid, hvi]
          simp
        · intro p' hp'
          omega
        · intro j hj
          simpa using hfresh j hj
      · -- the vertex was created while processing `rest`
        push_neg at hmid
        obtain ⟨q', hq', hvq, hfr, hfst⟩ := rnew i hmid hlt
        refine ⟨q' + 1, by simpa using hq', by simpa using hvq, ?_, ?_⟩
        · intro p' hp'
          cases p' with
          | zero =>
            -- corner `c`'s key is realized in the mid state's vertices
            obtain ⟨hd2lt, hd2key⟩ := dinv c.hash_key |>.1 _ dlook
            have := hfst _ hd2lt
            rw [hd2key] at this
            simpa using this
          | succ p'' =>
            have hp'' : p'' < q' := by omega
            simpa using hfr p'' hp''
        · intro j hj
          have := hfst j (lt_of_lt_of_le hj dlen)
          rw [dpre j hj] at this
          simpa using this

theorem hash_key_eq_iff (v w : IntermediateVertex) :
    v.hash_key = w.hash_key ↔
      (v.position = w.position ∧ v.normal = w.normal ∧ v.uv = w.uv ∧
       v.uv2 = w.uv2 ∧ v.color = w.color) := by
  simp [IntermediateVertex.hash_key, Prod.ext_iff]

/-- C2: two triangle corners whose candidate records agree on all of
(position, normal, uv0, uv1, color) are mapped to the same vertex index and
corners that differ in any of those five fields get distinct indices; the
record stored for the shared index is the first corner with that key (bone
weights, bone indices and tangent play no role in the key). -/
theorem c2_dedup_spec (corners : List IntermediateVertex)
    (i j : Nat) (hi : i < corners.length) (hj : j < corners.length) :
    (((corners.getD i default).position = (corners.getD j default).position ∧
      (corners.getD i default).normal = (corners.getD j default).normal ∧
      (corners.getD i default).uv = (corners.getD j default).uv ∧
      (corners.getD i default).uv2 = (corners.getD j default).uv2 ∧
      (corners.getD i default).color = (corners.getD j default).color) ↔
      (dedupCorners emptyState corners).2.getD i 0 =
        (dedupCorners emptyState corners).2.getD j 0) ∧
    (∃ q, q ≤ i ∧
      (corners.getD q default).hash_key = (corners.getD i default).hash_key ∧
      (∀ r, r < q →
        (corners.getD r default).hash_key ≠
          (corners.getD i default).hash_key) ∧
      (dedupCorners emptyState corners).1.vertices.getD
          ((dedupCorners emptyState corners).2.getD i 0) default =
        corners.getD q default) := by
  obtain ⟨finv, _, _, _, _, fcor, fnew⟩ :=
    dedupCorners_spec corners emptyState emptyState_inv
  have hlooki := fcor i hi
  have hlookj := fcor j hj
  constructor
  · rw [← hash_key_eq_iff]
    constructor
    · intro hkeys
      rw [hkeys] at hlooki
      rw [hlooki] at hlookj
      injection hlookj
    · intro hidx
      obtain ⟨_, hkeyi⟩ := (finv _).1 _ hlooki
      obtain ⟨_, hkeyj⟩ := (finv _).1 _ hlookj
      rw [← hkeyi, ← hkeyj, hidx]
  · obtain ⟨hAlt, hAkey⟩ := (finv _).1 _ hlooki
    have hstart : (emptyState.vertices).length ≤
        (dedupCorners emptyState corners).2.getD i 0 := by
      simp [emptyState]
    obtain ⟨q, hq, hvq, hmin, _⟩ := fnew _ hstart hAlt
    have hkeyq : (corners.getD q default).hash_key =
        (corners.getD i default).hash_key := by
      rw [← hAkey, hvq]
    refine ⟨q, ?_, hkeyq, ?_, hvq⟩
    · by_contra hgt
      push_neg at hgt
      exact hmin i hgt hkeyq.symm
    · intro r hr
      rw [← hkeyq]
      exact hmin r hr

theorem getD_cons3 {x0 x1 x2 : Nat} {l : List Nat} {m : Nat} :
    (x0 :: x1 :: x2 :: l).getD (m + 3) 0 = l.getD m 0 := by
  rw [show m + 3 = m + 1 + 1 + 1 by ring, List.getD_cons_succ,
    List.getD_cons_succ, List.getD_cons_succ]

/-- State equality and index correspondence between the per-triangle loop and
the flattened corner stream. -/
theorem decomposeTriangles_eq (tris :
      List (Nat × (IntermediateVertex × IntermediateVertex × IntermediateVertex)))
    (st : DedupState) :
    (decomposeTriangles st tris).1 = (dedupCorners st (flattenCorners tris)).1 ∧
    ∀ t, t < tris.length →
      (decomposeTriangles st tris).2.getD t default =
        ((tris.getD t default).1,
         ((dedupCorners st (flattenCorners tris)).2.getD (3 * t) 0,
          (dedupCorners st (flattenCorners tris)).2.getD (3 * t + 2) 0,
          (dedupCorners st (flattenCorners tris)).2.getD (3 * t + 1) 0)) := by
  induction tris generalizing st with
  | nil =>
    exact ⟨rfl, fun t ht => by simp at ht⟩
  | cons tri rest ih =>
    obtain ⟨m, cs⟩ := tri
    have hflat : flattenCorners ((m, cs) :: rest) =
        cs.1 :: cs.2.1 :: cs.2.2 :: flattenCorners rest := by
      simp [flattenCorners]
    rw [hflat]
    have hunfold : dedupCorners st (cs.1 :: cs.2.1 :: cs.2.2 :: flattenCorners rest) =
        ((dedupCorners (processTriangle st cs.1 cs.2.1 cs.2.2).1
            (flattenCorners rest)).1,
         (dedupVertex st cs.1).2 ::
           (dedupVertex (dedupVertex st cs.1).1 cs.2.1).2 ::
             (dedupVertex (dedupVertex (dedupVertex st cs.1).1 cs.2.1).1 cs.2.2).2 ::
               (dedupCorners (processTriangle st cs.1 cs.2.1 cs.2.2).1
                 (flattenCorners rest)).2) := by
      rfl
    rw [hunfold]
    obtain ⟨ihst, ihtr⟩ := ih (processTriangle st cs.1 cs.2.1 cs.2.2).1
    constructor
    · exact ihst
    · intro t ht
      cases t with
      | zero =>
        simp [decomposeTriangles, processTriangle]
      | succ t' =>
        have ht' : t' < rest.length := by simpa using ht
        have h3 : 3 * (t' + 1) = 3 * t' + 3 := by ring
        rw [h3]
        rw [show 3 * t' + 3 + 2 = 3 * t' + 2 + 3 by ring,
          show 3 * t' + 3 + 1 = 3 * t' + 1 + 3 by ring]
        rw [getD_cons3, getD_cons3, getD_cons3]
        have := ihtr t' ht'
        simpa [decomposeTriangles] using this

/-- C3: for every input triangle whose three corners deduplicate, in corner
order, to indices `(a, b, c)`, the stored triangle is `(a, c, b)` — the
second and third corner indices swapped. -/
theorem c3_winding_flip (tris :
      List (Nat × (IntermediateVertex × IntermediateVertex × IntermediateVertex)))
    (t : Nat) (ht : t < tris.length) :
    ((decomposeTriangles emptyState tris).2.getD t default).2 =
      ((dedupCorners emptyState (flattenCorners tris)).2.getD (3 * t) 0,
       (dedupCorners emptyState (flattenCorners tris)).2.getD (3 * t + 2) 0,
       (dedupCorners emptyState (flattenCorners tris)).2.getD (3 * t + 1) 0) := by
  rw [(decomposeTriangles_eq tris emptyState).2 t ht]

def wv1 : IntermediateVertex := { position := (1, 2, 3) }

def wv2 : IntermediateVertex := { position := (4, 5, 6) }

/-- Same dedup key as `wv1` but different bone weights. -/
def wv3 : IntermediateVertex := { position := (1, 2, 3), bone_weights := some [1] }

theorem c2_dedup_spec_witness :
    (dedupCorners emptyState [wv1, wv2, wv3]).2.getD 0 0 =
      (dedupCorners emptyState [wv1, wv2, wv3]).2.getD 2 0 :=
  (c2_dedup_spec [wv1, wv2, wv3] 0 2 (by norm_num) (by norm_num)).1.mp
    (by exact ⟨rfl, rfl, rfl, rfl, rfl⟩)

theorem c3_winding_flip_witness :
    ((decomposeTriangles emptyState [(0, (wv1, wv2, wv3))]).2.getD 0 default).2 =
      ((dedupCorners emptyState (flattenCorners [(0, (wv1, wv2, wv3))])).2.getD 0 0,
       (dedupCorners emptyState (flattenCorners [(0, (wv1, wv2, wv3))])).2.getD 2 0,
       (dedupCorners emptyState (flattenCorners [(0, (wv1, wv2, wv3))])).2.getD 1 0) :=
  c3_winding_flip [(0, (wv1, wv2, wv3))] 0 (by norm_num)

end Decompose

namespace Technique

/-! ### Embedding of `src/materials/technique_map.py` (with the data shapes
from `src/materials/analyzer.py` and `src/data/urho_material.py`). -/

structure TextureInfo where
  image_name : String
deriving Repr, DecidableEq

structure PBRProperties where
  base_color : ℚ × ℚ × ℚ := (4/5, 4/5, 4/5)
  base_color_alpha : ℚ := 1
  metallic : ℚ := 0
  roughness : ℚ := 1/2
  specular_ior_level : ℚ := 1/2
  emission_color : ℚ × ℚ × ℚ := (0, 0, 0)
  emission_strength : ℚ := 1
  alpha : ℚ := 1
  base_color_texture : Option TextureInfo := none
  metallic_texture : Option TextureInfo := none
  roughness_texture : Option TextureInfo := none
  normal_texture : Option TextureInfo := none
  emission_texture : Option TextureInfo := none
  ao_texture : Option TextureInfo := none
  has_transparency : Bool := false
  uses_alpha_clip : Bool := false
  is_two_sided : Bool := false
  is_unlit : Bool := false
deriving Repr, DecidableEq

structure UrhoMaterialResult where
  technique_name : String := "Techniques/NoTexture.xml"
  textures : List (String × String) := []
  mat_diff_color : Option (ℚ × ℚ × ℚ × ℚ) := none
  mat_spec_color : Option (ℚ × ℚ × ℚ × ℚ) := none
  mat_emissive_color : Option (ℚ × ℚ × ℚ) := none
  metallic : Option ℚ := none
  roughness : Option ℚ := none
  vs_defines : String := ""
  ps_defines : String := ""
  cull_mode : String := "ccw"
  shadow_cull : String := "ccw"
deriving Repr, DecidableEq

/-- Python dict assignment `d[k] = v` on an insertion-ordered dictionary. -/
def dictSet (l : List (String × String)) (k v : String) : List (String × String) :=
  if l.any (fun p => p.1 = k) then
    l.map (fun p => if p.1 = k then (k, v) else p)
  else l ++ [(k, v)]

/-- `texture.image_name`, applied only under a texture-present guard. -/
def imageName (t : Option TextureInfo) : String :=
  (t.map TextureInfo.image_name).getD ""

def _append_define (existing new_define : String) : String :=
  if existing ≠ "" then existing ++ " " ++ new_define else new_define

/-- `str.startswith(prefix)` via the underlying character list. -/
def pyStartswith (s pre : String) : Bool :=
  pre.data.isPrefixOf s.data

/-- `TechniqueMapper._map_pbr`. -/
def mapPBR (props : PBRProperties) (result : UrhoMaterialResult)
    (has_diff has_norm has_spec has_ao has_emissive has_alpha : Bool) :
    UrhoMaterialResult :=
  let core :=
    if has_spec then
      (if has_norm then
        (if has_diff then "PBR/PBRMetallicRough" ++ "Diff"
         else "PBR/PBRMetallicRough") ++ "Normal"
       else
        (if has_diff then "PBR/PBRMetallicRough" ++ "Diff"
         else "PBR/PBRMetallicRough")) ++ "Spec"
    else
      if ¬has_diff ∧ ¬has_norm then "PBR/PBRNoTexture"
      else
        (if has_norm then
          (if has_diff then "PBR/PBR" ++ "Diff" else "PBR/PBR") ++ "Normal"
         else
          (if has_diff then "PBR/PBR" ++ "Diff" else "PBR/PBR"))
  let tex0 := result.textures
  let tex1 := if has_diff then
      dictSet tex0 "diffuse" (imageName props.base_color_texture) else tex0
  let tex2 := if has_norm then
      dictSet tex1 "normal" (imageName props.normal_texture) else tex1
  let tex3 :=
    if has_spec then
      match props.metallic_texture with
      | some t => dictSet tex2 "specular" t.image_name
      | none =>
        match props.roughness_texture with
        | some t => dictSet tex2 "specular" t.image_name
        | none => tex2
    else tex2
  let tech1 := if has_ao then core ++ "AO" else core
  let tex4 := if has_ao then
      dictSet tex3 "emissive" (imageName props.ao_texture) else tex3
  let tech2 := if has_emissive then tech1 ++ "Emissive" else tech1
  let tex5 :=
    if has_emissive then
      match props.emission_texture with
      | some t => dictSet tex4 "emissive" t.image_name
      | none => tex4
    else tex4
  let tech3 := if has_alpha then tech2 ++ "Alpha" else tech2
  let bc := props.base_color
  { result with
    technique_name := tech3
    textures := tex5
    mat_diff_color := some (bc.1, bc.2.1, bc.2.2, props.alpha)
    mat_spec_color := some (1, 1, 1, 1)
    metallic := if has_spec then some 0 else some props.metallic
    roughness := if has_spec then some 0 else some props.roughness
    mat_emissive_color :=
      if (0 < props.emission_color.1 ∨ 0 < props.emission_color.2.1 ∨
            0 < props.emission_color.2.2) ∧ 0 < props.emission_strength then
        some (props.emission_color.1 * props.emission_strength,
              props.emission_color.2.1 * props.emission_strength,
              props.emission_color.2.2 * props.emission_strength)
      else result.mat_emissive_color }

/-- `TechniqueMapper._map_legacy`. -/
def mapLegacy (props : PBRProperties) (result : UrhoMaterialResult)
    (has_diff has_norm has_emission has_spec has_alpha : Bool) :
    UrhoMaterialResult :=
  let (core, tex0) :=
    if has_diff then
      let t1 := "Diff"
      let x1 := dictSet result.textures "diffuse" (imageName props.base_color_texture)
      let (t2, x2) := if has_norm then
          (t1 ++ "Normal", dictSet x1 "normal" (imageName props.normal_texture))
        else (t1, x1)
      if has_spec then
        (t2 ++ "Spec",
         match props.metallic_texture with
         | some t => dictSet x2 "specular" t.image_name
         | none =>
           match props.roughness_texture with
           | some t => dictSet x2 "specular" t.image_name
           | none => x2)
      else (t2, x2)
    else ("NoTexture", result.textures)
  let (tech1, tex1) :=
    if has_emission then
      (core ++ "Emissive", dictSet tex0 "emissive" (imageName props.emission_texture))
    else (core, tex0)
  let tech2 := if props.is_unlit then tech1 ++ "Unlit" else tech1
  let tech3 := if has_alpha then tech2 ++ "Alpha" else tech2
  let bc := props.base_color
  let spec := props.specular_ior_level
  let power := max 1 (((1 - props.roughness) * 30) ^ 2)
  { result with
    technique_name := tech3
    textures := tex1
    mat_diff_color := some (bc.1, bc.2.1, bc.2.2, props.alpha)
    mat_spec_color := some (spec, spec, spec, power)
    mat_emissive_color :=
      if (0 < props.emission_color.1 ∨ 0 < props.emission_color.2.1 ∨
            0 < props.emission_color.2.2) then
        some (props.emission_color.1 * props.emission_strength,
              props.emission_color.2.1 * props.emission_strength,
              props.emission_color.2.2 * props.emission_strength)
      else result.mat_emissive_color }

structure TechniqueMapper where
  prefer_pbr : Bool := true
  pack_textures : Bool := true

/-- `TechniqueMapper.map_material`. -/
def TechniqueMapper.map_material (m : TechniqueMapper) (props : PBRProperties) :
    UrhoMaterialResult :=
  let result : UrhoMaterialResult := {}
  let has_diffuse_tex := props.base_color_texture.isSome
  let has_normal_tex := props.normal_texture.isSome
  let has_metallic_tex := props.metallic_texture.isSome
  let has_roughness_tex := props.roughness_texture.isSome
  let has_spec_tex := (has_metallic_tex || has_roughness_tex) && m.pack_textures
  let has_emission_tex := props.emission_texture.isSome
  let has_ao_tex := props.ao_texture.isSome
  let has_alpha := props.has_transparency
  let is_pbr := m.prefer_pbr && !props.is_unlit
  let r1 :=
    if is_pbr then
      mapPBR props result has_diffuse_tex has_normal_tex has_spec_tex
        has_ao_tex has_emission_tex has_alpha
    else
      mapLegacy props result has_diffuse_tex has_normal_tex has_emission_tex
        has_spec_tex has_alpha
  let r2 := if props.is_two_sided then
      { r1 with cull_mode := "none", shadow_cull := "none" } else r1
  let r3 := if props.uses_alpha_clip then
      { r2 with ps_defines := _append_define r2.ps_defines "ALPHAMASK" } else r2
  if ¬ (pyStartswith r3.technique_name "Techniques/") then
    { r3 with technique_name := "Techniques/" ++ r3.technique_name ++ ".xml" }
  else r3

theorem ite_append (c : Prop) [Decidable c] (t x : String) :
    (if c then t ++ x else t) = t ++ (if c then x else "") := by
  split <;> simp [String.append_empty]

theorem prefix_app (p r : List Char) : p.isPrefixOf (p ++ r) = true := by
  induction p with
  | nil => simp [List.isPrefixOf]
  | cons x xs ih => simp [List.isPrefixOf, ih]

theorem prefix_mismatch (c d : Char) (hcd : (c == d) = false)
    (pre rest1 rest2 : List Char) :
    (pre ++ c :: rest1).isPrefixOf (pre ++ d :: rest2) = false := by
  induction pre with
  | nil => simp [List.isPrefixOf, hcd]
  | cons x xs ih => simp [List.isPrefixOf, ih]

theorem notTechniquesPrefix (l : List Char) :
    "Techniques/".data.isPrefixOf ('P' :: l) = false := by
  simp [List.isPrefixOf]

/-- The technique name built by `_map_pbr`, with the incremental `+=` chain
normalized into one append. -/
theorem mapPBR_name (props : PBRProperties) (r : UrhoMaterialResult)
    (hd hn hsp hao hem hal : Bool) :
    (mapPBR props r hd hn hsp hao hem hal).technique_name =
      ((((if hsp = true then
            (("PBR/PBRMetallicRough" ++ (if hd = true then "Diff" else "")) ++
              (if hn = true then "Normal" else "")) ++ "Spec"
          else if ¬hd = true ∧ ¬hn = true then "PBR/PBRNoTexture"
          else ("PBR/PBR" ++ (if hd = true then "Diff" else "")) ++
            (if hn = true then "Normal" else "")) ++
         (if hao = true then "AO" else "")) ++
        (if hem = true then "Emissive" else "")) ++
       (if hal = true then "Alpha" else "")) := by
  simp only [mapPBR, ite_append]

theorem mapPBR_metallic (props : PBRProperties) (r : UrhoMaterialResult)
    (hd hn hsp hao hem hal : Bool) :
    (mapPBR props r hd hn hsp hao hem hal).metallic =
      (if hsp = true then some 0 else some props.metallic) ∧
    (mapPBR props r hd hn hsp hao hem hal).roughness =
      (if hsp = true then some 0 else some props.roughness) := by
  constructor <;> simp only [mapPBR]

/-- With the spec flag on, the technique name starts with
`PBR/PBRMetallicRough`. -/
theorem mapPBR_name_spec (props : PBRProperties) (r : UrhoMaterialResult)
    (hd hn hao hem hal : Bool) :
    ∃ rest, (mapPBR props r hd hn true hao hem hal).technique_name.data =
      "PBR/PBRMetallicRough".data ++ rest := by
  rw [mapPBR_name]
  simp only [if_pos rfl, String.data_append, List.append_assoc]
  exact ⟨_, rfl⟩

/-- Without the spec flag, the character after `PBR/PBR` is `N` or `D`. -/
theorem mapPBR_name_nonspec (props : PBRProperties) (r : UrhoMaterialResult)
    (hd hn hao hem hal : Bool) :
    ∃ c rest, (c = 'N' ∨ c = 'D') ∧
      (mapPBR props r hd hn false hao hem hal).technique_name.data =
        "PBR/PBR".data ++ c :: rest := by
  rw [mapPBR_name]
  simp only [Bool.false_eq_true, if_false]
  by_cases hd' : hd = true
  · -- `Diff` is appended: next char is 'D'
    have hcond : ¬ (¬hd = true ∧ ¬hn = true) := by simp [hd']
    rw [if_neg hcond, if_pos hd']
    exact ⟨'D', _, Or.inr rfl, rfl⟩
  · by_cases hn' : hn = true
    · have hcond : ¬ (¬hd = true ∧ ¬hn = true) := by simp [hn']
      rw [if_neg hcond, if_neg hd', if_pos hn']
      exact ⟨'N', _, Or.inl rfl, rfl⟩
    · rw [if_pos ⟨hd', hn'⟩]
      exact ⟨'N', _, Or.inl rfl, rfl⟩

/-- Every PBR technique name starts with the character `P`. -/
theorem mapPBR_headP (props : PBRProperties) (r : UrhoMaterialResult)
    (hd hn hsp hao hem hal : Bool) :
    ∃ l, (mapPBR props r hd hn hsp hao hem hal).technique_name.data = 'P' :: l := by
  cases hsp with
  | true =>
    obtain ⟨rest, hrest⟩ := mapPBR_name_spec props r hd hn hao hem hal
    rw [hrest]
    exact ⟨_, rfl⟩
  | false =>
    obtain ⟨c, rest, _, hrest⟩ := mapPBR_name_nonspec props r hd hn hao hem hal
    rw [hrest]
    exact ⟨_, rfl⟩

theorem prefix_app2 (p r1 r2 : List Char) :
    p.isPrefixOf ((p ++ r1) ++ r2) = true := by
  rw [List.append_assoc]
  exact prefix_app _ _

/-- On the PBR path the final result wraps the `_map_pbr` name as
`Techniques/<name>.xml` and passes its metallic/roughness through. -/
theorem map_material_pbr_fields (m : TechniqueMapper) (props : PBRProperties)
    (h : (m.prefer_pbr && !props.is_unlit) = true) :
    (m.map_material props).technique_name =
      "Techniques/" ++
        (mapPBR props {} props.base_color_texture.isSome
          props.normal_texture.isSome
          ((props.metallic_texture.isSome || props.roughness_texture.isSome) &&
            m.pack_textures)
          props.ao_texture.isSome props.emission_texture.isSome
          props.has_transparency).technique_name ++ ".xml" ∧
    (m.map_material props).metallic =
      (mapPBR props {} props.base_color_texture.isSome
        props.normal_texture.isSome
        ((props.metallic_texture.isSome || props.roughness_texture.isSome) &&
          m.pack_textures)
        props.ao_texture.isSome props.emission_texture.isSome
        props.has_transparency).metallic ∧
    (m.map_material props).roughness =
      (mapPBR props {} props.base_color_texture.isSome
        props.normal_texture.isSome
        ((props.metallic_texture.isSome || props.roughness_texture.isSome) &&
          m.pack_textures)
        props.ao_texture.isSome props.emission_texture.isSome
        props.has_transparency).roughness := by
  obtain ⟨l, hl⟩ := mapPBR_headP props {} props.base_color_texture.isSome
    props.normal_texture.isSome
    ((props.metallic_texture.isSome || props.roughness_texture.isSome) &&
      m.pack_textures)
    props.ao_texture.isSome props.emission_texture.isSome props.has_transparency
  have hws : pyStartswith
      (mapPBR props {} props.base_color_texture.isSome
        props.normal_texture.isSome
        ((props.metallic_texture.isSome || props.roughness_texture.isSome) &&
          m.pack_textures)
        props.ao_texture.isSome props.emission_texture.isSome
        props.has_transparency).technique_name "Techniques/" = false := by
    rw [pyStartswith, hl]
    exact notTechniquesPrefix l
  simp only [TechniqueMapper.map_material, h, if_true]
  cases h2s : props.is_two_sided <;> cases hac : props.uses_alpha_clip <;>
    simp [hws]

/-- C6: with prefer-PBR on and a non-unlit material, the
`PBRMetallicRough...Spec` technique family is chosen iff a metallic or
roughness texture is present and the pack-textures flag is enabled, and
exactly in that case the emitted metallic and roughness scalars are 0
(otherwise they equal the input scalars). -/
theorem c6_pbr_spec_variant (m : TechniqueMapper) (props : PBRProperties)
    (hpbr : m.prefer_pbr = true) (hunlit : props.is_unlit = false) :
    (pyStartswith (m.map_material props).technique_name
        "Techniques/PBR/PBRMetallicRough" = true ↔
      ((props.metallic_texture.isSome = true ∨
          props.roughness_texture.isSome = true) ∧ m.pack_textures = true)) ∧
    (((props.metallic_texture.isSome = true ∨
          props.roughness_texture.isSome = true) ∧ m.pack_textures = true) →
      (m.map_material props).metallic = some 0 ∧
      (m.map_material props).roughness = some 0) ∧
    (¬ ((props.metallic_texture.isSome = true ∨
          props.roughness_texture.isSome = true) ∧ m.pack_textures = true) →
      (m.map_material props).metallic = some props.metallic ∧
      (m.map_material props).roughness = some props.roughness) := by
  have hb : (m.prefer_pbr && !props.is_unlit) = true := by
    rw [hpbr, hunlit]
    rfl
  have hcond : ((props.metallic_texture.isSome = true ∨
      props.roughness_texture.isSome = true) ∧ m.pack_textures = true) ↔
      ((props.metallic_texture.isSome || props.roughness_texture.isSome) &&
        m.pack_textures) = true := by
    cases props.metallic_texture.isSome <;>
      cases props.roughness_texture.isSome <;> cases m.pack_textures <;> simp
  obtain ⟨hname, hmet, hrough⟩ := map_material_pbr_fields m props hb
  obtain ⟨hm0, hr0⟩ := mapPBR_metallic props {} props.base_color_texture.isSome
    props.normal_texture.isSome
    ((props.metallic_texture.isSome || props.roughness_texture.isSome) &&
      m.pack_textures)
    props.ao_texture.isSome props.emission_texture.isSome props.has_transparency
  refine ⟨?_, ?_, ?_⟩
  · rw [hcond]
    cases hs : ((props.metallic_texture.isSome || props.roughness_texture.isSome) &&
        m.pack_textures) with
    | true =>
      simp only [hs] at hname
      obtain ⟨rest, hrest⟩ := mapPBR_name_spec props {}
        props.base_color_texture.isSome props.normal_texture.isSome
        props.ao_texture.isSome props.emission_texture.isSome
        props.has_transparency
      rw [pyStartswith, hname, String.data_append, String.data_append, hrest]
      rw [show "Techniques/".data ++ ("PBR/PBRMetallicRough".data ++ rest) =
        "Techniques/PBR/PBRMetallicRough".data ++ rest from by
          rw [← List.append_assoc] <;> rfl]
      rw [prefix_app2]
    | false =>
      simp only [hs] at hname
      obtain ⟨c, rest, hcNR, hrest⟩ := mapPBR_name_nonspec props {}
        props.base_color_texture.isSome props.normal_texture.isSome
        props.ao_texture.isSome props.emission_texture.isSome
        props.has_transparency
      rw [pyStartswith, hname, String.data_append, String.data_append, hrest]
      rw [show ("Techniques/".data ++ ("PBR/PBR".data ++ c :: rest)) ++ ".xml".data =
        "Techniques/PBR/PBR".data ++ c :: (rest ++ ".xml".data) from by
          rw [List.append_assoc, List.append_assoc, ← List.append_assoc] <;> rfl]
      rw [show "Techniques/PBR/PBRMetallicRough".data =
        "Techniques/PBR/PBR".data ++ 'M' :: "etallicRough".data from rfl]
      rw [prefix_mismatch 'M' c
        (by rcases hcNR with h | h <;> rw [h] <;> decide)]
  · intro hc
    rw [hcond] at hc
    rw [hmet, hrough, hm0, hr0, hc]
    exact ⟨rfl, rfl⟩
  · intro hc
    rw [hcond] at hc
    have hs : ((props.metallic_texture.isSome || props.roughness_texture.isSome) &&
        m.pack_textures) = false := by
      cases h : ((props.metallic_texture.isSome || props.roughness_texture.isSome) &&
          m.pack_textures) with
      | true => exact absurd h hc
      | false => rfl
    rw [hmet, hrough, hm0, hr0, hs]
    exact ⟨rfl, rfl⟩

theorem c6_pbr_spec_variant_witness :
    (TechniqueMapper.map_material {}
      { metallic_texture := some ⟨"metal_rough.png"⟩ }).metallic = some 0 ∧
    (TechniqueMapper.map_material {}
      { metallic_texture := some ⟨"metal_rough.png"⟩ }).roughness = some 0 :=
  (c6_pbr_spec_variant {} { metallic_texture := some ⟨"metal_rough.png"⟩ }
    rfl rfl).2.1 ⟨Or.inl rfl, rfl⟩

end Technique

namespace Model

/-! ### The remaining `src/data/intermediate.py` dataclasses, shared by the
morph, writer and bone-map embeddings.  Floats are `ℚ`. -/

open Decompose (IntermediateVertex)

structure IntermediateLodLevel where
  distance : ℚ := 0
  triangles : List (Nat × Nat × Nat) := []
deriving Repr, DecidableEq, Inhabited

structure IntermediateGeometry where
  material_name : String := ""
  material_index : Nat := 0
  lod_levels : List IntermediateLodLevel := []
deriving Repr, DecidableEq, Inhabited

structure IntermediateMorphVertex where
  vertex_index : Nat := 0
  position_delta : ℚ × ℚ × ℚ := (0, 0, 0)
  normal_delta : Option (ℚ × ℚ × ℚ) := none
  tangent_delta : Option (ℚ × ℚ × ℚ) := none
deriving Repr, DecidableEq, Inhabited

structure IntermediateMorph where
  name : String := ""
  vertices : List IntermediateMorphVertex := []
deriving Repr, DecidableEq, Inhabited

structure IntermediateBone where
  name : String := ""
  index : Nat := 0
  parent_index : Nat := 0
  bind_position : ℚ × ℚ × ℚ := (0, 0, 0)
  bind_rotation : ℚ × ℚ × ℚ × ℚ := (1, 0, 0, 0)
  bind_scale : ℚ × ℚ × ℚ := (1, 1, 1)
  inverse_bind_matrix : Option (List (List ℚ)) := none
  collision_mask : Nat := 0
  bounding_sphere_radius : ℚ := 0
  bounding_box_min : Option (ℚ × ℚ × ℚ) := none
  bounding_box_max : Option (ℚ × ℚ × ℚ) := none
deriving Repr, DecidableEq, Inhabited

structure IntermediateTrackKeyframe where
  time : ℚ := 0
  position : Option (ℚ × ℚ × ℚ) := none
  rotation : Option (ℚ × ℚ × ℚ × ℚ) := none
  scale : Option (ℚ × ℚ × ℚ) := none
deriving Repr, DecidableEq, Inhabited

structure IntermediateTrack where
  name : String := ""
  keyframes : List IntermediateTrackKeyframe := []
deriving Repr, DecidableEq, Inhabited

structure IntermediateAnimation where
  name : String := ""
  duration : ℚ := 0
  tracks : List IntermediateTrack := []
deriving Repr, DecidableEq, Inhabited

structure IntermediateModel where
  name : String := ""
  vertices : List IntermediateVertex := []
  geometries : List IntermediateGeometry := []
  morphs : List IntermediateMorph := []
  bones : List IntermediateBone := []
  bbox_min : ℚ × ℚ × ℚ := (0, 0, 0)
  bbox_max : ℚ × ℚ × ℚ := (0, 0, 0)
deriving Repr, DecidableEq, Inhabited

/-- `_blender_to_urho_pos`: Y/Z swap with uniform scale. -/
def blenderToUrhoPos (co : ℚ × ℚ × ℚ) (scale : ℚ) : ℚ × ℚ × ℚ :=
  (co.1 * scale, co.2.2 * scale, co.2.1 * scale)

/-- `_blender_to_urho_normal`: Y/Z swap. -/
def blenderToUrhoNormal (n : ℚ × ℚ × ℚ) : ℚ × ℚ × ℚ :=
  (n.1, n.2.2, n.2.1)

/-- The `1e-6` morph delta epsilon. -/
def EPSILON : ℚ := 1 / 1000000

end Model

namespace StateRestore

/-! ### Embedding of the save/restore discipline of `_decompose_morphs`
(`src/mesh/decompose.py`) and `decompose_actions`
(`src/skeleton/animation.py`).

The Blender scene is external state: the shape-key values/mute flags and the
(active action, current frame, NLA flag) triple are modelled explicitly and
threaded through; mesh evaluation and pose sampling are oracles that may
fail, standing for any exception raised mid-way.  `try/finally` becomes: the
loop returns the state at its exit (normal or error), and the `finally`
restoration is applied to it unconditionally. -/

open Decompose (IntermediateVertex)
open Model

/-- Shape-key state: one `(value, mute)` pair per key block. -/
abbrev KeyState := List (ℚ × Bool)

/-- An evaluated morph mesh: per-Blender-vertex `(co, normal)` plus the
`corner_normals` availability flag. -/
abbrev MorphMesh := List ((ℚ × ℚ × ℚ) × (ℚ × ℚ × ℚ)) × Bool

/-- The per-shape-key delta computation of `_decompose_morphs`. -/
def computeMorphVerts (mesh : MorphMesh)
    (baseVerts : List IntermediateVertex) (scale : ℚ)
    (export_morph_normals : Bool) : List IntermediateMorphVertex :=
  (baseVerts.enum).filterMap (fun p =>
    match p.2.blender_index with
    | none => none
    | some bl =>
      if bl < mesh.1.length then
        let mv := mesh.1.getD bl default
        let mpos := blenderToUrhoPos mv.1 scale
        let dx := mpos.1 - p.2.position.1
        let dy := mpos.2.1 - p.2.position.2.1
        let dz := mpos.2.2 - p.2.position.2.2
        if |dx| < EPSILON ∧ |dy| < EPSILON ∧ |dz| < EPSILON then none
        else
          let nd :=
            match p.2.normal with
            | some bn =>
              if export_morph_normals ∧ mesh.2 then
                let mn := blenderToUrhoNormal mv.2
                some (mn.1 - bn.1, mn.2.1 - bn.2.1, mn.2.2 - bn.2.2)
              else none
            | none => none
          some { vertex_index := p.1, position_delta := (dx, dy, dz),
                 normal_delta := nd }
      else none)

/-- The morph loop over non-basis key indices.  Each iteration sets the key
value to 1, evaluates (which may fail), and resets the value to 0; a failure
aborts the loop, returning the state at the failure point. -/
def morphLoop (oracle : Nat → Except Unit MorphMesh) (keyNames : List String)
    (baseVerts : List IntermediateVertex) (scale : ℚ)
    (export_morph_normals : Bool) :
    List Nat → KeyState → Except Unit (List IntermediateMorph) × KeyState
  | [], st => (.ok [], st)
  | ki :: rest, st =>
    let st1 := st.set ki (1, (st.getD ki (0, false)).2)
    match oracle ki with
    | .error e => (.error e, st1)
    | .ok mesh =>
      let morph : IntermediateMorph :=
        { name := keyNames.getD ki "",
          vertices := computeMorphVerts mesh baseVerts scale export_morph_normals }
      let st2 := st1.set ki (0, (st1.getD ki (0, false)).2)
      let r := morphLoop oracle keyNames baseVerts scale export_morph_normals rest st2
      (r.1.map (fun ms => if morph.vertices ≠ [] then morph :: ms else ms), r.2)

/-- The `finally` block: `for i, (val, mute) in enumerate(saved): restore`. -/
def restoreKeys (saved cur : KeyState) : KeyState :=
  (List.range saved.length).foldl
    (fun ks i => ks.set i (saved.getD i (0, false))) cur

/-- `_decompose_morphs`: save, zero all, loop with try/finally restore. -/
def _decompose_morphs (keys : KeyState) (keyNames : List String)
    (oracle : Nat → Except Unit MorphMesh)
    (baseVerts : List IntermediateVertex) (scale : ℚ)
    (export_morph_normals : Bool) :
    Except Unit (List IntermediateMorph) × KeyState :=
  if keys.length < 2 then (.ok [], keys)
  else
    let saved := keys
    let zeroed := keys.map (fun _ => ((0 : ℚ), false))
    let r := morphLoop oracle keyNames baseVerts scale export_morph_normals
      (List.range' 1 (keys.length - 1)) zeroed
    (r.1, restoreKeys saved r.2)

theorem foldl_set_length (saved : KeyState) (l : List Nat) (ks : KeyState) :
    (l.foldl (fun ks i => ks.set i (saved.getD i (0, false))) ks).length =
      ks.length := by
  induction l generalizing ks with
  | nil => rfl
  | cons i l ih =>
    simp only [List.foldl_cons]
    rw [ih]
    exact List.length_set ks i _

theorem foldl_set_getD (saved : KeyState) (l : List Nat) (ks : KeyState)
    (j : Nat) :
    ((l.foldl (fun ks i => ks.set i (saved.getD i (0, false))) ks).getD j
        (0, false)) =
      if j ∈ l ∧ j < ks.length then saved.getD j (0, false)
      else ks.getD j (0, false) := by
  induction l generalizing ks with
  | nil => simp
  | cons i l ih =>
    simp only [List.foldl_cons]
    rw [ih]
    by_cases hjl : j ∈ l ∧ j < (ks.set i (saved.getD i (0, false))).length
    · rw [if_pos hjl, if_pos ⟨List.mem_cons_of_mem i hjl.1, by
        have := hjl.2
        rwa [List.length_set] at this⟩]
    · rw [if_neg hjl]
      rw [List.length_set] at hjl
      by_cases hij : i = j
      · subst hij
        by_cases hlen : i < ks.length
        · rw [if_pos ⟨List.mem_cons_self i l, hlen⟩]
          rw [List.getD_eq_getElem?_getD, List.getElem?_set, if_pos rfl,
            if_pos hlen]
          rfl
        · rw [if_neg (fun hc => hlen hc.2)]
          rw [List.getD_eq_getElem?_getD, List.getElem?_set, if_pos rfl,
            if_neg hlen, List.getD_eq_getElem?_getD]
          simp [List.getElem?_eq_none (le_of_not_lt hlen)]
      · have hmem : (j ∈ i :: l ∧ j < ks.length) ↔ (j ∈ l ∧ j < ks.length) := by
          constructor
          · rintro ⟨hm, hl⟩
            rcases List.mem_cons.mp hm with h | h
            · exact absurd h.symm hij
            · exact ⟨h, hl⟩
          · rintro ⟨hm, hl⟩
            exact ⟨List.mem_cons_of_mem i hm, hl⟩
        rw [if_congr hmem rfl rfl, if_neg hjl]
        rw [List.getD_eq_getElem?_getD, List.getElem?_set, if_neg hij,
          ← List.getD_eq_getElem?_getD]

theorem restoreKeys_eq (saved cur : KeyState) (h : cur.length = saved.length) :
    restoreKeys saved cur = saved := by
  apply List.ext_getElem
  · rw [restoreKeys, foldl_set_length, h]
  · intro i h1 h2
    have hlen : (restoreKeys saved cur).length = cur.length :=
      foldl_set_length saved _ cur
    have hgd := foldl_set_getD saved (List.range saved.length) cur i
    rw [if_pos ⟨List.mem_range.mpr h2, by omega⟩] at hgd
    rw [← List.getD_eq_getElem _ (0, false) h1, ← List.getD_eq_getElem _ (0, false) h2]
    exact hgd

theorem morphLoop_length (oracle : Nat → Except Unit MorphMesh)
    (keyNames : List String) (baseVerts : List IntermediateVertex) (scale : ℚ)
    (emn : Bool) (l : List Nat) (st : KeyState) :
    ((morphLoop oracle keyNames baseVerts scale emn l st).2).length =
      st.length := by
  induction l generalizing st with
  | nil => rfl
  | cons ki rest ih =>
    simp only [morphLoop]
    rcases oracle ki with e | mesh
    · simp [List.length_set]
    · simp only []
      rw [ih]
      simp [List.length_set]

structure BAction where
  name : String
  frame_start : Int
  frame_end : Int
deriving Repr, DecidableEq, Inhabited

structure NlaTrack where
  name : String
  mute : Bool
  strips : List (Option BAction)
deriving Repr, DecidableEq, Inhabited

structure BScene where
  frame_current : Int := 0
  frame_start : Int := 1
  frame_end : Int := 250
  frame_step : Nat := 1
  fps : ℚ := 24
deriving Repr, DecidableEq, Inhabited

inductive AnimSource where
  | used_actions | all_actions | nla_tracks | timeline
deriving Repr, DecidableEq

/-- The mutable Blender state touched by `decompose_actions`: the armature's
active action and NLA flag, and the scene's current frame. -/
structure AnimState where
  action : Option BAction
  frame : Int
  use_nla : Bool
deriving Repr, DecidableEq

/-- `_collect_actions` for `USED_ACTIONS`: actions referenced by non-muted
NLA strips, deduplicated by name, plus the current action. -/
def collectUsed (tracks : List NlaTrack) (current : Option BAction) :
    List (String × Int × Int × Option BAction) :=
  let f := fun (acc : List String × List (String × Int × Int × Option BAction))
      (strip : Option BAction) =>
    match strip with
    | some a =>
      if a.name ∈ acc.1 then acc
      else (a.name :: acc.1,
        acc.2 ++ [(a.name, a.frame_start, a.frame_end + 1, some a)])
    | none => acc
  let r := tracks.foldl
    (fun acc tr => if tr.mute then acc else tr.strips.foldl f acc) ([], [])
  match current with
  | some a =>
    if a.name ∈ r.1 then r.2
    else r.2 ++ [(a.name, a.frame_start, a.frame_end + 1, some a)]
  | none => r.2

/-- `_collect_actions`. -/
def _collect_actions (current : Option BAction) (tracks : List NlaTrack)
    (allActions : List BAction) (sc : BScene) (source : AnimSource) :
    List (String × Int × Int × Option BAction) :=
  match source with
  | .used_actions => collectUsed tracks current
  | .all_actions =>
    allActions.map (fun a => (a.name, a.frame_start, a.frame_end + 1, some a))
  | .nla_tracks =>
    (tracks.filter (fun tr => !tr.mute)).map
      (fun tr => (tr.name, sc.frame_start, sc.frame_end + 1, none))
  | .timeline => [("Timeline", sc.frame_start, sc.frame_end + 1, none)]

/-- `range(frame_start, frame_end, frame_step)`. -/
def pyRange (start stop : Int) (step : Nat) : List Int :=
  if step = 0 then []
  else (List.range (((stop - start).toNat + step - 1) / step)).map
    (fun i => start + i * step)

/-- A sampled pose: parent-relative (translation, quaternion wxyz, scale). -/
abbrev PoseMat := (ℚ × ℚ × ℚ) × (ℚ × ℚ × ℚ × ℚ) × (ℚ × ℚ × ℚ)

abbrev TracksData := List (String × List IntermediateTrackKeyframe)

/-- `tracks_data[bone_name].append(kf)` with dict insertion order. -/
def appendTrack (acc : TracksData) (b : String)
    (kf : IntermediateTrackKeyframe) : TracksData :=
  if acc.any (fun p => p.1 = b) then
    acc.map (fun p => if p.1 = b then (p.1, p.2 ++ [kf]) else p)
  else acc ++ [(b, [kf])]

/-- The inner bone loop of `_bake_action` at one frame. -/
def boneLoop (pose : Int → String → Except Unit PoseMat)
    (bonesMap : List String) (scale : ℚ) (exp_pos exp_rot exp_scl : Bool)
    (frame : Int) (time : ℚ) :
    List String → TracksData → Except Unit TracksData
  | [], acc => .ok acc
  | b :: bs, acc =>
    if b ∈ bonesMap then
      match pose frame b with
      | .error e => .error e
      | .ok m =>
        let t := m.1
        let q := m.2.1
        let s := m.2.2
        let t1 := if scale ≠ 1 then (t.1 * scale, t.2.1 * scale, t.2.2 * scale)
          else t
        let kf : IntermediateTrackKeyframe :=
          { time := time,
            position := if exp_pos then some (t1.1, t1.2.1, -t1.2.2) else none,
            rotation := if exp_rot then
              some (q.1, -q.2.1, -q.2.2.1, q.2.2.2) else none,
            scale := if exp_scl then some s else none }
        boneLoop pose bonesMap scale exp_pos exp_rot exp_scl frame time bs
          (appendTrack acc b kf)
    else boneLoop pose bonesMap scale exp_pos exp_rot exp_scl frame time bs acc

/-- The frame loop of `_bake_action`: each iteration performs a `frame_set`
(mutating the scene's current frame) before sampling. -/
def bakeFrames (sc : BScene) (poseBones bonesMap : List String)
    (pose : Int → String → Except Unit PoseMat) (scale : ℚ)
    (exp_pos exp_rot exp_scl : Bool) (frame_start : Int) :
    List Int → AnimState → TracksData → Except Unit TracksData × AnimState
  | [], st, acc => (.ok acc, st)
  | frame :: rest, st, acc =>
    let st1 := { st with frame := frame }
    let time := ((frame : ℚ) - (frame_start : ℚ)) / sc.fps
    match boneLoop pose bonesMap scale exp_pos exp_rot exp_scl frame time
        poseBones acc with
    | .error e => (.error e, st1)
    | .ok acc2 =>
      bakeFrames sc poseBones bonesMap pose scale exp_pos exp_rot exp_scl
        frame_start rest st1 acc2

/-- `_bake_action`. -/
def _bake_action (st : AnimState) (sc : BScene)
    (poseBones bonesMap : List String)
    (pose : Int → String → Except Unit PoseMat) (action_name : String)
    (frame_start frame_end : Int) (scale : ℚ)
    (exp_pos exp_rot exp_scl : Bool) :
    Except Unit (Option IntermediateAnimation) × AnimState :=
  let r := bakeFrames sc poseBones bonesMap pose scale exp_pos exp_rot exp_scl
    frame_start (pyRange frame_start frame_end sc.frame_step) st []
  match r.1 with
  | .error e => (.error e, r.2)
  | .ok tracks_data =>
    if tracks_data = [] then (.ok none, r.2)
    else
      let duration := max 0 (((frame_end : ℚ) - (frame_start : ℚ) - 1) / sc.fps)
      let tracks := tracks_data.map
        (fun p => ({ name := p.1, keyframes := p.2 } : IntermediateTrack))
      (.ok (some { name := action_name, duration := duration,
                   tracks := tracks }), r.2)

/-- The action loop inside the `try` of `decompose_actions`.  A failing
action assignment is caught and skipped; a failure inside baking aborts the
loop with the state at the failure point. -/
def actionLoop (sc : BScene) (poseBones bonesMap : List String)
    (pose : Int → String → Except Unit PoseMat)
    (setActionFails : BAction → Bool) (scale : ℚ)
    (exp_pos exp_rot exp_scl : Bool) :
    List (String × Int × Int × Option BAction) → AnimState →
      List IntermediateAnimation →
      Except Unit (List IntermediateAnimation) × AnimState
  | [], st, anims => (.ok anims, st)
  | (name, fs, fe, act) :: rest, st, anims =>
    match act with
    | some a =>
      if setActionFails a then
        actionLoop sc poseBones bonesMap pose setActionFails scale
          exp_pos exp_rot exp_scl rest st anims
      else
        let st1 := { st with action := some a }
        match hb : _bake_action st1 sc poseBones bonesMap pose name fs fe scale
            exp_pos exp_rot exp_scl with
        | (.error e, st2) => (.error e, st2)
        | (.ok anim?, st2) =>
          let anims2 := match anim? with
            | some anim => if anim.tracks ≠ [] then anims ++ [anim] else anims
            | none => anims
          actionLoop sc poseBones bonesMap pose setActionFails scale
            exp_pos exp_rot exp_scl rest st2 anims2
    | none =>
      match hb : _bake_action st sc poseBones bonesMap pose name fs fe scale
          exp_pos exp_rot exp_scl with
      | (.error e, st2) => (.error e, st2)
      | (.ok anim?, st2) =>
        let anims2 := match anim? with
          | some anim => if anim.tracks ≠ [] then anims ++ [anim] else anims
          | none => anims
        actionLoop sc poseBones bonesMap pose setActionFails scale
          exp_pos exp_rot exp_scl rest st2 anims2

/-- `decompose_actions`: save (action, frame, NLA flag), collect, bake under
`use_nla = False`, and restore all three in the `finally`. -/
def decompose_actions (st : AnimState) (hasAnimData : Bool)
    (tracks : List NlaTrack) (allActions : List BAction) (sc : BScene)
    (source : AnimSource) (poseBones bonesMap : List String)
    (pose : Int → String → Except Unit PoseMat)
    (setActionFails : BAction → Bool) (scale : ℚ)
    (exp_pos exp_rot exp_scl : Bool) :
    Except Unit (List IntermediateAnimation) × AnimState :=
  if ¬hasAnimData then (.ok [], st)
  else
    let saved_action := st.action
    let saved_frame := st.frame
    let saved_use_nla := st.use_nla
    let actions := _collect_actions st.action tracks allActions sc source
    if actions = [] then (.ok [], st)
    else
      let st1 := { st with use_nla := false }
      let r := actionLoop sc poseBones bonesMap pose setActionFails scale
        exp_pos exp_rot exp_scl actions st1 []
      (r.1, { r.2 with use_nla := saved_use_nla, action := saved_action,
                       frame := saved_frame })

/-- C8: morph decomposition and animation baking restore the saved scene
state on every exit path — the shape-key (value, mute) list is returned to
its input state whatever the evaluation oracle does (including failure), and
the (active action, current frame, NLA flag) triple is returned to its input
state whatever the baking does. -/
theorem c8_state_restore :
    (∀ (keys : KeyState) (keyNames : List String)
        (oracle : Nat → Except Unit MorphMesh)
        (baseVerts : List IntermediateVertex) (scale : ℚ) (emn : Bool),
      (_decompose_morphs keys keyNames oracle baseVerts scale emn).2 = keys) ∧
    (∀ (st : AnimState) (hasAnimData : Bool) (tracks : List NlaTrack)
        (allActions : List BAction) (sc : BScene) (source : AnimSource)
        (poseBones bonesMap : List String)
        (pose : Int → String → Except Unit PoseMat)
        (setActionFails : BAction → Bool) (scale : ℚ)
        (ep er es : Bool),
      (decompose_actions st hasAnimData tracks allActions sc source poseBones
        bonesMap pose setActionFails scale ep er es).2 = st) := by
  constructor
  · intro keys keyNames oracle baseVerts scale emn
    rw [_decompose_morphs]
    by_cases h2 : keys.length < 2
    · rw [if_pos h2]
    · rw [if_neg h2]
      apply restoreKeys_eq
      rw [morphLoop_length]
      simp
  · intro st hasAnimData tracks allActions sc source poseBones bonesMap pose
      setActionFails scale ep er es
    rw [decompose_actions]
    by_cases hA : hasAnimData = true
    · simp only [hA]
      by_cases hE : _collect_actions st.action tracks allActions sc source = []
      · simp [hE]
      · simp only [hE, if_neg]
        cases st
        simp
    · have : hasAnimData = false := by
        cases hasAnimData
        · rfl
        · exact absurd rfl hA
      simp [this]

theorem c8_state_restore_witness :
    (_decompose_morphs [(1, false), (1/2, true)] ["Basis", "Smile"]
      (fun _ => .error ()) [] 1 false).2 = [(1, false), (1/2, true)] :=
  c8_state_restore.1 [(1, false), (1/2, true)] ["Basis", "Smile"]
    (fun _ => .error ()) [] 1 false

end StateRestore

namespace Writer

/-! ### Embedding of `src/formats/binary_writer.py`, `src/formats/model_writer.py`,
`src/formats/animation_writer.py` and the constants of `src/data/urho_model.py`.

The byte buffer is modelled as a list of packed-value tokens; `struct.pack`
range errors become `Except.error`.  Out-of-range vertex indexing in the
pre-serialization passes is modelled with the default vertex (which carries
no bone data) instead of an exception; `math.sqrt` is an explicit function
parameter. -/

open Decompose (IntermediateVertex)
open Model

def ELEMENT_POSITION : Nat := 0x0001
def ELEMENT_NORMAL : Nat := 0x0002
def ELEMENT_COLOR : Nat := 0x0004
def ELEMENT_UV1 : Nat := 0x0008
def ELEMENT_UV2 : Nat := 0x0010
def ELEMENT_TANGENT : Nat := 0x0080
def ELEMENT_BWEIGHTS : Nat := 0x0100
def ELEMENT_BINDICES : Nat := 0x0200
def ELEMENT_BLEND : Nat := ELEMENT_BWEIGHTS + ELEMENT_BINDICES
def MAX_SKIN_MATRICES : Nat := 64
def PRIMITIVE_TRIANGLE_LIST : Nat := 0
def MODEL_MAGIC : String := "UMDL"
def ANIMATION_MAGIC : String := "UANI"
def TRACK_POSITION : Nat := 0x01
def TRACK_ROTATION : Nat := 0x02
def TRACK_SCALE : Nat := 0x04

/-- `compute_element_mask` (the flag combinations are disjoint bits, so the
`|=` accumulation is a sum). -/
def compute_element_mask (has_normal has_color has_uv1 has_uv2 has_tangent
    has_weights : Bool) : Nat :=
  ELEMENT_POSITION +
  (if has_normal then ELEMENT_NORMAL else 0) +
  (if has_color then ELEMENT_COLOR else 0) +
  (if has_uv1 then ELEMENT_UV1 else 0) +
  (if has_uv2 then ELEMENT_UV2 else 0) +
  (if has_tangent then ELEMENT_TANGENT else 0) +
  (if has_weights then ELEMENT_BLEND else 0)

/-- One packed value in the in-memory buffer. -/
inductive BTok where
  | uint (v : Nat)
  | ushort (v : Nat)
  | ubyte (v : Nat)
  | flt (q : ℚ)
  | ascii (s : String)
deriving Repr, DecidableEq

abbrev Buf := List BTok

def wAscii (b : Buf) (s : String) : Except String Buf := .ok (b ++ [.ascii s])

def wCstring (b : Buf) (s : String) : Except String Buf :=
  .ok (b ++ [.ascii s, .ubyte 0])

def wUint (b : Buf) (v : Nat) : Except String Buf :=
  if v < 4294967296 then .ok (b ++ [.uint v]) else .error "uint out of range"

def wUshort (b : Buf) (v : Nat) : Except String Buf :=
  if v < 65536 then .ok (b ++ [.ushort v]) else .error "ushort out of range"

def wUbyte (b : Buf) (v : Nat) : Except String Buf :=
  if v < 256 then .ok (b ++ [.ubyte v]) else .error "ubyte out of range"

def wFloat (b : Buf) (q : ℚ) : Except String Buf := .ok (b ++ [.flt q])

def wVector3 (b : Buf) (v : ℚ × ℚ × ℚ) : Except String Buf :=
  .ok (b ++ [.flt v.1, .flt v.2.1, .flt v.2.2])

def wVector2 (b : Buf) (v : ℚ × ℚ) : Except String Buf :=
  .ok (b ++ [.flt v.1, .flt v.2])

def wQuaternion (b : Buf) (w x y z : ℚ) : Except String Buf :=
  .ok (b ++ [.flt w, .flt x, .flt y, .flt z])

def wColorUbyte4 (b : Buf) (r g bl a : Nat) : Except String Buf :=
  if r < 256 ∧ g < 256 ∧ bl < 256 ∧ a < 256 then
    .ok (b ++ [.ubyte r, .ubyte g, .ubyte bl, .ubyte a])
  else .error "ubyte out of range"

/-- `write_matrix3x4`: 3 rows of 4 columns, row-major. -/
def wMatrix3x4 (b : Buf) (rows : List (List ℚ)) : Except String Buf :=
  .ok (b ++ ((rows.take 3).flatMap (fun row => (row.take 4).map BTok.flt)))

/-- The `0.001` weight threshold of `_compute_bone_bounds`. -/
def BOUND_WEIGHT_EPS : ℚ := 1 / 1000

/-- `_compute_bone_bounds`: per-bone vertex lists in bone-local space. -/
def boneLocalVerts (model : IntermediateModel) (bi : Nat) : List (ℚ × ℚ × ℚ) :=
  model.vertices.foldl (fun acc v =>
    match v.bone_weights, v.bone_indices with
    | some bw, some bidx =>
      ((bidx.zip bw).foldl (fun acc p =>
        if p.2 < BOUND_WEIGHT_EPS ∨ model.bones.length ≤ p.1 then acc
        else
          match (model.bones.getD p.1 default).inverse_bind_matrix with
          | none => acc
          | some ibm =>
            if ibm.isEmpty then acc
            else if p.1 = bi then
              let px := v.position.1
              let py := v.position.2.1
              let pz := v.position.2.2
              let row := fun (i : Nat) =>
                (ibm.getD i []).getD 0 0 * px + (ibm.getD i []).getD 1 0 * py +
                  (ibm.getD i []).getD 2 0 * pz + (ibm.getD i []).getD 3 0
              acc ++ [(row 0, row 1, row 2)]
            else acc) acc)
    | _, _ => acc) []

/-- `_compute_bone_bounds` (mutating the bone list; `math.sqrt` is the
`sqrtFn` parameter). -/
def _compute_bone_bounds (model : IntermediateModel) (sqrtFn : ℚ → ℚ) :
    IntermediateModel :=
  if model.bones = [] then model
  else
    let bones2 := model.bones.enum.map (fun p =>
      let bone := p.2
      let verts := boneLocalVerts model p.1
      match verts with
      | [] =>
        { bone with
          collision_mask := 3
          bounding_sphere_radius := 1/10
          bounding_box_min := some (-(1/10), -(1/10), -(1/10))
          bounding_box_max := some (1/10, 1/10, 1/10) }
      | v0 :: vrest =>
        let minx := vrest.foldl (fun m v => min m v.1) v0.1
        let miny := vrest.foldl (fun m v => min m v.2.1) v0.2.1
        let minz := vrest.foldl (fun m v => min m v.2.2) v0.2.2
        let maxx := vrest.foldl (fun m v => max m v.1) v0.1
        let maxy := vrest.foldl (fun m v => max m v.2.1) v0.2.1
        let maxz := vrest.foldl (fun m v => max m v.2.2) v0.2.2
        let radius := (v0 :: vrest).foldl (fun r v =>
          let d := sqrtFn (v.1 * v.1 + v.2.1 * v.2.1 + v.2.2 * v.2.2)
          if r < d then d else r) 0
        { bone with
          collision_mask := 3
          bounding_sphere_radius := radius
          bounding_box_min := some (minx, miny, minz)
          bounding_box_max := some (maxx, maxy, maxz) })
    { model with bones := bones2 }

/-- The `0.0001` threshold of the used-bone collection in `_build_bone_maps`. -/
def MAP_WEIGHT_EPS : ℚ := 1 / 10000

/-- Python set insertion (membership semantics; insertion order kept). -/
def setInsert (s : List Nat) (b : Nat) : List Nat :=
  if b ∈ s then s else s ++ [b]

/-- `used_bones` collection for one geometry, read from the CURRENT vertex
list (which earlier geometries may already have remapped in place). -/
def usedBones (vertices : List IntermediateVertex) (geom : IntermediateGeometry) :
    List Nat :=
  geom.lod_levels.foldl (fun s lod =>
    lod.triangles.foldl (fun s tri =>
      [tri.1, tri.2.1, tri.2.2].foldl (fun s vi =>
        let v := vertices.getD vi default
        match v.bone_indices with
        | some bi =>
          match v.bone_weights with
          | some bw =>
            ((bi.zip bw).filter (fun p => MAP_WEIGHT_EPS < p.2)).foldl
              (fun s p => setInsert s p.1) s
          | none => bi.foldl setInsert s
        | none => s) s) s) []

/-- `sorted(used_bones)`. -/
def sortedUsedBones (vertices : List IntermediateVertex)
    (geom : IntermediateGeometry) : List Nat :=
  (usedBones vertices geom).insertionSort (· ≤ ·)

/-- The in-place vertex bone-index remapping for one geometry:
`remap.get(bi, 0)` applied to every index of every vertex the geometry
touches (vertices visited more than once are remapped more than once, as in
the source). -/
def remapVertices (remap : List (Nat × Nat))
    (vertices : List IntermediateVertex) (geom : IntermediateGeometry) :
    List IntermediateVertex :=
  geom.lod_levels.foldl (fun vs lod =>
    lod.triangles.foldl (fun vs tri =>
      [tri.1, tri.2.1, tri.2.2].foldl (fun vs vi =>
        let v := vs.getD vi default
        match v.bone_indices with
        | some bi =>
          vs.set vi
            { v with bone_indices := some (bi.map (fun b => (remap.lookup b).getD 0)) }
        | none => vs) vs) vs) vertices

/-- `_build_bone_maps`: identity map for every geometry when the bone count
is within the skinning limit; otherwise a per-geometry sorted used-bone
list (truncated to the limit with a warning), with the vertex bone indices
remapped in place geometry by geometry. -/
def _build_bone_maps (model : IntermediateModel) :
    List (Nat × List Nat) × IntermediateModel × List String :=
  if model.bones.length ≤ MAX_SKIN_MATRICES then
    ((List.range model.geometries.length).map
      (fun gi => (gi, List.range model.bones.length)), model, [])
  else
    let r := model.geometries.enum.foldl
      (fun (acc : List (Nat × List Nat) × List IntermediateVertex × List String)
          p =>
        let gi := p.1
        let geom := p.2
        let bone_list0 := (usedBones acc.2.1 geom).insertionSort (· ≤ ·)
        let truncated := MAX_SKIN_MATRICES < bone_list0.length
        let bone_list := if truncated then bone_list0.take MAX_SKIN_MATRICES
          else bone_list0
        let warn := if truncated then ["geometry bone overflow truncated"]
          else []
        let remap := bone_list.enum.map (fun q => (q.2, q.1))
        let vs2 := remapVertices remap acc.2.1 geom
        (acc.1 ++ [(gi, bone_list)], vs2, acc.2.2 ++ warn))
      ([], model.vertices, ["model bone count exceeds limit, remapping"])
    (r.1, { model with vertices := r.2.1 }, r.2.2)

/-- `_compute_geometry_center`. -/
def _compute_geometry_center (model : IntermediateModel)
    (geom : IntermediateGeometry) : ℚ × ℚ × ℚ :=
  let r := geom.lod_levels.foldl (fun acc lod =>
    lod.triangles.foldl (fun acc tri =>
      [tri.1, tri.2.1, tri.2.2].foldl
        (fun (acc : (ℚ × ℚ × ℚ) × Nat × List Nat) idx =>
          if idx ∈ acc.2.2 then acc
          else
            let v := model.vertices.getD idx default
            ((acc.1.1 + v.position.1, acc.1.2.1 + v.position.2.1,
              acc.1.2.2 + v.position.2.2),
             acc.2.1 + 1, acc.2.2 ++ [idx])) acc) acc)
    ((0, 0, 0), 0, [])
  if r.2.1 = 0 then (0, 0, 0)
  else (r.1.1 / r.2.1, r.1.2.1 / r.2.1, r.1.2.2 / r.2.1)

/-- Per-vertex field writes, gated by the element flags taken from vertex 0. -/
def writeVertex (has_normal has_color has_uv1 has_uv2 has_tangent
    has_weights : Bool) (b : Buf) (v : IntermediateVertex) :
    Except String Buf := do
  let mut buf := b
  buf ← wVector3 buf v.position
  if has_normal then
    buf ← wVector3 buf (v.normal.getD (0, 0, 0))
  if has_color then
    let c := v.color.getD (255, 255, 255, 255)
    buf ← wColorUbyte4 buf c.1 c.2.1 c.2.2.1 c.2.2.2
  if has_uv1 then
    buf ← wVector2 buf (v.uv.getD (0, 0))
  if has_uv2 then
    buf ← wVector2 buf (v.uv2.getD (0, 0))
  if has_tangent then
    let t := v.tangent.getD (0, 0, 0, 1)
    buf ← wFloat buf t.1
    buf ← wFloat buf t.2.1
    buf ← wFloat buf t.2.2.1
    buf ← wFloat buf t.2.2.2
  if has_weights then
    let bw := v.bone_weights.getD [0, 0, 0, 0]
    for i in List.range 4 do
      buf ← wFloat buf (bw.getD i 0)
    let bi := v.bone_indices.getD [0, 0, 0, 0]
    for i in List.range 4 do
      buf ← wUbyte buf (bi.getD i 0)
  return buf

/-- One morph record. -/
def writeMorph (b : Buf) (morph : IntermediateMorph) : Except String Buf := do
  let mut buf := b
  buf ← wCstring buf morph.name
  buf ← wUint buf 1
  buf ← wUint buf 0
  let has_morph_normals := morph.vertices.any (fun mv => mv.normal_delta.isSome)
  let has_morph_tangents := morph.vertices.any (fun mv => mv.tangent_delta.isSome)
  let morph_mask := ELEMENT_POSITION +
    (if has_morph_normals then ELEMENT_NORMAL else 0) +
    (if has_morph_tangents then ELEMENT_TANGENT else 0)
  buf ← wUint buf morph_mask
  buf ← wUint buf morph.vertices.length
  for mv in morph.vertices do
    buf ← wUint buf mv.vertex_index
    buf ← wVector3 buf mv.position_delta
    if has_morph_normals then
      buf ← wVector3 buf (mv.normal_delta.getD (0, 0, 0))
    if has_morph_tangents then
      buf ← wVector3 buf (mv.tangent_delta.getD (0, 0, 0))
  return buf

/-- One bone record. -/
def writeBone (b : Buf) (bone : IntermediateBone) : Except String Buf := do
  let mut buf := b
  buf ← wCstring buf bone.name
  buf ← wUint buf bone.parent_index
  buf ← wVector3 buf bone.bind_position
  buf ← wQuaternion buf bone.bind_rotation.1 bone.bind_rotation.2.1
    bone.bind_rotation.2.2.1 bone.bind_rotation.2.2.2
  buf ← wVector3 buf bone.bind_scale
  match bone.inverse_bind_matrix with
  | some ibm =>
    if ibm.isEmpty then
      for row in List.range 3 do
        for col in List.range 4 do
          buf ← wFloat buf (if row = col then 1 else 0)
    else
      buf ← wMatrix3x4 buf ibm
  | none =>
    for row in List.range 3 do
      for col in List.range 4 do
        buf ← wFloat buf (if row = col then 1 else 0)
  buf ← wUbyte buf bone.collision_mask
  if bone.collision_mask % 2 = 1 then
    buf ← wFloat buf bone.bounding_sphere_radius
  if bone.collision_mask / 2 % 2 = 1 then
    buf ← wVector3 buf (bone.bounding_box_min.getD (0, 0, 0))
    buf ← wVector3 buf (bone.bounding_box_max.getD (0, 0, 0))
  return buf

/-- The serialization body inside the `with binary_file(...)` block of
`write_model`, taking the precomputed bone maps, flat index list and LOD
ranges. -/
def serializeModel (model : IntermediateModel)
    (bone_maps : List (Nat × List Nat)) (all_indices : List Nat)
    (geom_lod_ranges : List (List (Nat × Nat))) : Except String Buf := do
  let v0 := model.vertices.getD 0 default
  let has_normal := v0.normal.isSome
  let has_uv1 := v0.uv.isSome
  let has_uv2 := v0.uv2.isSome
  let has_color := v0.color.isSome
  let has_tangent := v0.tangent.isSome
  let has_weights := v0.bone_weights.isSome
  let element_mask := compute_element_mask has_normal has_color has_uv1
    has_uv2 has_tangent has_weights
  let vertex_count := model.vertices.length
  let use_32bit := 65535 < vertex_count
  let index_size := if use_32bit then 4 else 2
  let affected := model.morphs.flatMap (fun m => m.vertices.map
    (fun mv => mv.vertex_index))
  let morph_start := if model.morphs ≠ [] ∧ affected ≠ [] then
    affected.foldl min (affected.getD 0 0) else 0
  let morph_count := if model.morphs ≠ [] ∧ affected ≠ [] then
    affected.foldl max (affected.getD 0 0) - morph_start + 1 else 0
  let mut buf : Buf := []
  buf ← wAscii buf MODEL_MAGIC
  buf ← wUint buf 1
  buf ← wUint buf vertex_count
  buf ← wUint buf element_mask
  buf ← wUint buf morph_start
  buf ← wUint buf morph_count
  for v in model.vertices do
    buf ← writeVertex has_normal has_color has_uv1 has_uv2 has_tangent
      has_weights buf v
  buf ← wUint buf 1
  buf ← wUint buf all_indices.length
  buf ← wUint buf index_size
  for idx in all_indices do
    if use_32bit then
      buf ← wUint buf idx
    else
      buf ← wUshort buf idx
  buf ← wUint buf model.geometries.length
  for p in model.geometries.enum do
    match bone_maps.lookup p.1 with
    | some bmap =>
      buf ← wUint buf bmap.length
      for bone_idx in bmap do
        buf ← wUint buf bone_idx
    | none =>
      buf ← wUint buf 0
    buf ← wUint buf p.2.lod_levels.length
    for q in p.2.lod_levels.enum do
      let range := (geom_lod_ranges.getD p.1 []).getD q.1 (0, 0)
      buf ← wFloat buf q.2.distance
      buf ← wUint buf PRIMITIVE_TRIANGLE_LIST
      buf ← wUint buf 0
      buf ← wUint buf 0
      buf ← wUint buf range.1
      buf ← wUint buf range.2
  buf ← wUint buf model.morphs.length
  for morph in model.morphs do
    buf ← writeMorph buf morph
  buf ← wUint buf model.bones.length
  for bone in model.bones do
    buf ← writeBone buf bone
  buf ← wVector3 buf model.bbox_min
  buf ← wVector3 buf model.bbox_max
  for geom in model.geometries do
    buf ← wVector3 buf (_compute_geometry_center model geom)
  return buf

/-- The flat index buffer and per-geometry LOD `(start, count)` ranges. -/
def buildIndexRanges (model : IntermediateModel) :
    List Nat × List (List (Nat × Nat)) :=
  model.geometries.foldl (fun acc geom =>
    let r := geom.lod_levels.foldl (fun (acc2 : List Nat × List (Nat × Nat)) lod =>
      let start := acc2.1.length
      let idxs := lod.triangles.flatMap (fun t => [t.1, t.2.1, t.2.2])
      (acc2.1 ++ idxs, acc2.2 ++ [(start, idxs.length)]))
      (acc.1, [])
    (r.1, acc.2 ++ [r.2])) ([], [])

/-- The full serialization attempt of `write_model`: bone-bound and
bone-map passes (mutating the model), then the buffer build.  In
`write_model` below, the first result component models the file system:
`none` means no file was created. -/
def write_model_serialized (model : IntermediateModel) (sqrtFn : ℚ → ℚ) :
    Except String Buf :=
  let model1 := if model.bones ≠ [] then _compute_bone_bounds model sqrtFn
    else model
  let bm := if model1.bones ≠ [] then _build_bone_maps model1
    else ([], model1, [])
  let ir := buildIndexRanges bm.2.1
  serializeModel bm.2.1 bm.1 ir.1 ir.2

def write_model (model : IntermediateModel) (sqrtFn : ℚ → ℚ) :
    Option Buf × Bool :=
  if model.vertices = [] ∨ model.geometries = [] then (none, false)
  else
    match write_model_serialized model sqrtFn with
    | .ok buf => (some buf, true)
    | .error _ => (none, false)

/-- The serialization body of `write_animation`. -/
def serializeAnimation (anim : IntermediateAnimation) : Except String Buf := do
  let mut buf : Buf := []
  buf ← wAscii buf ANIMATION_MAGIC
  buf ← wCstring buf anim.name
  buf ← wFloat buf anim.duration
  buf ← wUint buf anim.tracks.length
  for track in anim.tracks do
    buf ← wCstring buf track.name
    let kf0 := track.keyframes.getD 0 default
    let mask := if track.keyframes = [] then 0 else
      (if kf0.position.isSome then TRACK_POSITION else 0) +
      (if kf0.rotation.isSome then TRACK_ROTATION else 0) +
      (if kf0.scale.isSome then TRACK_SCALE else 0)
    buf ← wUbyte buf mask
    buf ← wUint buf track.keyframes.length
    for kf in track.keyframes do
      buf ← wFloat buf kf.time
      if mask % 2 = 1 then
        buf ← wVector3 buf (kf.position.getD (0, 0, 0))
      if mask / 2 % 2 = 1 then
        let r := kf.rotation.getD (1, 0, 0, 0)
        buf ← wQuaternion buf r.1 r.2.1 r.2.2.1 r.2.2.2
      if mask / 4 % 2 = 1 then
        buf ← wVector3 buf (kf.scale.getD (1, 1, 1))
  return buf

/-- `write_animation`. -/
def write_animation (anim : IntermediateAnimation) : Option Buf × Bool :=
  if anim.tracks = [] then (none, false)
  else
    match serializeAnimation anim with
    | .ok buf => (some buf, true)
    | .error _ => (none, false)

/-- C9: both binary writers are all-or-nothing.  A `false` return means no
file token buffer was produced; a produced file is exactly the complete
serialization and is reported as success. -/
theorem c9_write_all_or_nothing (model : IntermediateModel) (sqrtFn : ℚ → ℚ)
    (anim : IntermediateAnimation) :
    ((write_model model sqrtFn).2 = false → (write_model model sqrtFn).1 = none) ∧
    (∀ buf, (write_model model sqrtFn).1 = some buf →
      (write_model model sqrtFn).2 = true ∧
      write_model_serialized model sqrtFn = .ok buf) ∧
    ((write_animation anim).2 = false → (write_animation anim).1 = none) ∧
    (∀ buf, (write_animation anim).1 = some buf →
      (write_animation anim).2 = true ∧ serializeAnimation anim = .ok buf) := by
  refine ⟨?_, ?_, ?_, ?_⟩
  · intro hf
    rw [write_model]
    by_cases hg : model.vertices = [] ∨ model.geometries = []
    · rw [if_pos hg]
    · rw [if_neg hg]
      rcases hs : write_model_serialized model sqrtFn with e | buf
      · rfl
      · rw [write_model, if_neg hg, hs] at hf
        simp at hf
  · intro buf hb
    rw [write_model] at hb ⊢
    by_cases hg : model.vertices = [] ∨ model.geometries = []
    · rw [if_pos hg] at hb
      simp at hb
    · rw [if_neg hg] at hb ⊢
      rcases hs : write_model_serialized model sqrtFn with e | buf2
      · rw [hs] at hb
        simp at hb
      · rw [hs] at hb
        simp at hb
        subst hb
        exact ⟨rfl, rfl⟩
  · intro hf
    rw [write_animation]
    by_cases hg : anim.tracks = []
    · rw [if_pos hg]
    · rw [if_neg hg]
      rcases hs : serializeAnimation anim with e | buf
      · rfl
      · rw [write_animation, if_neg hg, hs] at hf
        simp at hf
  · intro buf hb
    rw [write_animation] at hb ⊢
    by_cases hg : anim.tracks = []
    · rw [if_pos hg] at hb
      simp at hb
    · rw [if_neg hg] at hb ⊢
      rcases hs : serializeAnimation anim with e | buf2
      · rw [hs] at hb
        simp at hb
      · rw [hs] at hb
        simp at hb
        subst hb
        exact ⟨rfl, rfl⟩

theorem c9_write_all_or_nothing_witness :
    (write_model {} (fun x => x)).1 = none :=
  (c9_write_all_or_nothing {} (fun x => x) {}).1 rfl

/-- A model with 65 bones (over the 64 skinning limit) and one vertex,
weighted to bone 64, shared by two geometries. -/
def cexVertex : IntermediateVertex :=
  { bone_indices := some [64, 0, 0, 0], bone_weights := some [1, 0, 0, 0] }

def cexGeom : IntermediateGeometry :=
  { lod_levels := [{ triangles := [(0, 0, 0)] }] }

def cexModel : IntermediateModel :=
  { vertices := [cexVertex], geometries := [cexGeom, cexGeom],
    bones := List.replicate 65 {} }

/-- C5 is violated by the code: with more than 64 bones, geometry 0's
in-place remapping overwrites the shared vertex's global bone index 64 with
the local index 0, so geometry 1's emitted table is `[0]` even though the
set of bone indices actually used by geometry 1's vertices (in the input
model) is `{64}`. -/
theorem c5_bone_maps_divergence :
    (_build_bone_maps cexModel).1 = [(0, [64]), (1, [0])] ∧
    sortedUsedBones cexModel.vertices (cexModel.geometries.getD 1 default) =
      [64] := by
  constructor
  · norm_num [_build_bone_maps, cexModel, cexGeom, cexVertex, usedBones,
      setInsert, remapVertices, MAP_WEIGHT_EPS, MAX_SKIN_MATRICES,
      List.insertionSort, List.orderedInsert, List.lookup, List.enum,
      List.enumFrom, List.foldl, List.filter, List.zip, List.zipWith]
    decide
  · norm_num [sortedUsedBones, cexModel, cexGeom, cexVertex, usedBones,
      setInsert, MAP_WEIGHT_EPS, List.insertionSort, List.orderedInsert,
      List.foldl, List.filter, List.zip, List.zipWith]

end Writer

namespace Tangents

/-! ### Embedding of `src/mesh/tangents.py` (`generate_tangents`, Lengyel
tangent-space method).

Python floats are `ℚ` and `math.sqrt` is an explicit function parameter
(the theorems assume it behaves as a square root at the arguments the code
feeds it).  A crash — a triangle index out of range (`model.vertices[i]`
raises `IndexError`) or a referenced vertex whose `uv` is `None`
(`uv[0]` raises `TypeError`) — is modelled as `none`; `tan1[idx]` is always
in range once the vertex reads succeed, since both accumulator lists have
length `vertex_count`. -/

open Decompose (IntermediateVertex)
open Model

/-- The `1e-8` epsilon used for both the UV determinant and the tangent
length. -/
def TAN_EPS : ℚ := 1 / 100000000

abbrev V3 := ℚ × ℚ × ℚ

/-- 3-vector dot product. -/
def dot3 (a b : V3) : ℚ := a.1 * b.1 + a.2.1 * b.2.1 + a.2.2 * b.2.2

/-- 3-vector cross product (as in the handedness computation). -/
def cross3 (a b : V3) : V3 :=
  (a.2.1 * b.2.2 - a.2.2 * b.2.1,
   a.2.2 * b.1 - a.1 * b.2.2,
   a.1 * b.2.1 - a.2.1 * b.1)

/-- `tan[idx] = tan[idx] + v`. -/
def addAt (l : List V3) (idx : Nat) (v : V3) : List V3 :=
  let t := l.getD idx (0, 0, 0)
  l.set idx (t.1 + v.1, t.2.1 + v.2.1, t.2.2 + v.2.2)

/-- The body of the triangle accumulation loop: state is the pair
`(tan1, tan2)`. -/
def accumTri (model : IntermediateModel) (st : List V3 × List V3)
    (tri : Nat × Nat × Nat) : Option (List V3 × List V3) :=
  (model.vertices.get? tri.1).bind fun v0 =>
  (model.vertices.get? tri.2.1).bind fun v1 =>
  (model.vertices.get? tri.2.2).bind fun v2 =>
  v0.uv.bind fun uv0 =>
  v1.uv.bind fun uv1 =>
  v2.uv.bind fun uv2 =>
  let p0 := v0.position
  let p1 := v1.position
  let p2 := v2.position
  let dx1 := p1.1 - p0.1
  let dy1 := p1.2.1 - p0.2.1
  let dz1 := p1.2.2 - p0.2.2
  let dx2 := p2.1 - p0.1
  let dy2 := p2.2.1 - p0.2.1
  let dz2 := p2.2.2 - p0.2.2
  let du1 := uv1.1 - uv0.1
  let dv1 := uv1.2 - uv0.2
  let du2 := uv2.1 - uv0.1
  let dv2 := uv2.2 - uv0.2
  let det := du1 * dv2 - du2 * dv1
  if |det| < TAN_EPS then some st
  else
    let r := 1 / det
    let sx := (dv2 * dx1 - dv1 * dx2) * r
    let sy := (dv2 * dy1 - dv1 * dy2) * r
    let sz := (dv2 * dz1 - dv1 * dz2) * r
    let tx := (du1 * dx2 - du2 * dx1) * r
    let ty := (du1 * dy2 - du2 * dy1) * r
    let tz := (du1 * dz2 - du2 * dz1) * r
    let st1 := (addAt st.1 tri.1 (sx, sy, sz), addAt st.2 tri.1 (tx, ty, tz))
    let st2 := (addAt st1.1 tri.2.1 (sx, sy, sz),
                addAt st1.2 tri.2.1 (tx, ty, tz))
    some (addAt st2.1 tri.2.2 (sx, sy, sz), addAt st2.2 tri.2.2 (tx, ty, tz))

/-- Just the UV determinant `du1 * dv2 - du2 * dv1` of a triangle, with the
same crash paths as the accumulation loop. -/
def triDet (model : IntermediateModel) (tri : Nat × Nat × Nat) : Option ℚ :=
  (model.vertices.get? tri.1).bind fun v0 =>
  (model.vertices.get? tri.2.1).bind fun v1 =>
  (model.vertices.get? tri.2.2).bind fun v2 =>
  v0.uv.bind fun uv0 =>
  v1.uv.bind fun uv1 =>
  v2.uv.bind fun uv2 =>
  some ((uv1.1 - uv0.1) * (uv2.2 - uv0.2) - (uv2.1 - uv0.1) * (uv1.2 - uv0.2))

/-- The full accumulation pass over all geometries, LOD levels and
triangles, starting from zeroed accumulators of length `vertex_count`. -/
def accumAll (model : IntermediateModel) : Option (List V3 × List V3) :=
  model.geometries.foldlM
    (fun st geom =>
      geom.lod_levels.foldlM
        (fun st lod => lod.triangles.foldlM (accumTri model) st) st)
    (List.replicate model.vertices.length (0, 0, 0),
     List.replicate model.vertices.length (0, 0, 0))

/-- Gram-Schmidt orthogonalization of `t` against `n`:
`t - n * dot(n, t)` (the un-normalized tangent of the finalize loop). -/
def orthoT (n t : V3) : V3 :=
  let d := dot3 n t
  (t.1 - n.1 * d, t.2.1 - n.2.1 * d, t.2.2 - n.2.2 * d)

/-- The squared length `tx*tx + ty*ty + tz*tz` the finalize loop feeds to
`math.sqrt` at vertex `i` (0 for a vertex without normal, which the loop
skips). -/
def orthoSq (t1 : List V3) (v : IntermediateVertex) (i : Nat) : ℚ :=
  match v.normal with
  | none => 0
  | some n =>
    let o := orthoT n (t1.getD i (0, 0, 0))
    dot3 o o

/-- The body of the finalize loop for vertex `i`. -/
def finalizeVertex (sqrtFn : ℚ → ℚ) (t1 t2 : List V3) (i : Nat)
    (v : IntermediateVertex) : IntermediateVertex :=
  match v.normal with
  | none => v
  | some n =>
    let t := t1.getD i (0, 0, 0)
    let o := orthoT n t
    let length := sqrtFn (dot3 o o)
    if length < TAN_EPS then { v with tangent := some (0, 0, 0, 1) }
    else
      let inv := 1 / length
      let c := cross3 n t
      let b := t2.getD i (0, 0, 0)
      let sign : ℚ := if dot3 c b < 0 then -1 else 1
      { v with tangent := some (o.1 * inv, o.2.1 * inv, o.2.2 * inv, sign) }

/-- `generate_tangents`: early return (unchanged model) when there are no
vertices or vertex 0 misses normal or UV; otherwise accumulate over all
triangles and rewrite every vertex through the finalize loop. -/
def generate_tangents (model : IntermediateModel) (sqrtFn : ℚ → ℚ) :
    Option IntermediateModel :=
  if model.vertices.length = 0 then some model
  else if (model.vertices.getD 0 default).normal = none ∨
      (model.vertices.getD 0 default).uv = none then some model
  else
    match accumAll model with
    | none => none
    | some acc =>
      some { model with
             vertices := model.vertices.enum.map
               (fun p => finalizeVertex sqrtFn acc.1 acc.2 p.1 p.2) }

theorem getD_enumFrom_map {α β : Type} (l : List α) (k i : Nat) (d : α)
    (e : β) (f : Nat → α → β) (hi : i < l.length) :
    ((l.enumFrom k).map fun p => f p.1 p.2).getD i e = f (k + i) (l.getD i d) := by
  induction l generalizing k i with
  | nil => exact absurd hi (by simp)
  | cons a t ih =>
    cases i with
    | zero => simp [List.enumFrom]
    | succ j =>
      have hj : j < t.length := by simpa using hi
      have hk : k + 1 + j = k + (j + 1) := by omega
      simp only [List.enumFrom, List.map_cons, List.getD_cons_succ,
        ih (k + 1) j hj, hk]

theorem getD_enum_map {α β : Type} (l : List α) (i : Nat) (d : α) (e : β)
    (f : Nat → α → β) (hi : i < l.length) :
    (l.enum.map fun p => f p.1 p.2).getD i e = f i (l.getD i d) := by
  simpa [List.enum] using getD_enumFrom_map l 0 i d e f hi

/-- Behaviour of the finalize loop body on a vertex carrying a unit normal,
assuming `sqrtFn` is a square root at the squared length the loop computes. -/
theorem finalizeVertex_spec (sqrtFn : ℚ → ℚ) (t1 t2 : List V3) (i : Nat)
    (v : IntermediateVertex) (n : V3) (hvn : v.normal = some n)
    (hnn : dot3 n n = 1)
    (hpos : 0 ≤ sqrtFn (orthoSq t1 v i))
    (hmul : sqrtFn (orthoSq t1 v i) * sqrtFn (orthoSq t1 v i) = orthoSq t1 v i) :
    (sqrtFn (orthoSq t1 v i) < TAN_EPS →
      (finalizeVertex sqrtFn t1 t2 i v).tangent = some (0, 0, 0, 1)) ∧
    (¬ sqrtFn (orthoSq t1 v i) < TAN_EPS →
      ∃ tx ty tz s,
        (finalizeVertex sqrtFn t1 t2 i v).tangent = some (tx, ty, tz, s) ∧
        tx * tx + ty * ty + tz * tz = 1 ∧
        dot3 n (tx, ty, tz) = 0 ∧
        ((dot3 (cross3 n (t1.getD i (0, 0, 0))) (t2.getD i (0, 0, 0)) < 0 ∧
            s = -1) ∨
         (¬ dot3 (cross3 n (t1.getD i (0, 0, 0))) (t2.getD i (0, 0, 0)) < 0 ∧
            s = 1))) := by
  have hsq : orthoSq t1 v i =
      dot3 (orthoT n (t1.getD i (0, 0, 0))) (orthoT n (t1.getD i (0, 0, 0))) := by
    simp [orthoSq, hvn]
  constructor
  · intro hlt
    simp only [finalizeVertex, hvn]
    rw [if_pos (by rw [← hsq]; exact hlt)]
  · intro hnlt
    have hnn' : n.1 * n.1 + n.2.1 * n.2.1 + n.2.2 * n.2.2 = 1 := hnn
    have key : dot3 n (orthoT n (t1.getD i (0, 0, 0))) = 0 := by
      simp only [dot3, orthoT]
      linear_combination
        (-(n.1 * (t1.getD i (0, 0, 0)).1 + n.2.1 * (t1.getD i (0, 0, 0)).2.1 +
          n.2.2 * (t1.getD i (0, 0, 0)).2.2)) * hnn'
    have hsne : sqrtFn (orthoSq t1 v i) ≠ 0 := by
      have hle : TAN_EPS ≤ sqrtFn (orthoSq t1 v i) := not_lt.mp hnlt
      have : (0 : ℚ) < TAN_EPS := by norm_num [TAN_EPS]
      exact ne_of_gt (lt_of_lt_of_le this hle)
    have hoo : sqrtFn (orthoSq t1 v i) * sqrtFn (orthoSq t1 v i) =
        dot3 (orthoT n (t1.getD i (0, 0, 0))) (orthoT n (t1.getD i (0, 0, 0))) := by
      rw [hmul, hsq]
    simp only [finalizeVertex, hvn]
    rw [if_neg (by rw [← hsq]; exact hnlt), ← hsq]
    set S := sqrtFn (orthoSq t1 v i) with hS
    set o := orthoT n (t1.getD i (0, 0, 0)) with ho
    simp only [dot3] at key hoo
    by_cases hsg :
        dot3 (cross3 n (t1.getD i (0, 0, 0))) (t2.getD i (0, 0, 0)) < 0
    · rw [if_pos hsg]
      refine ⟨_, _, _, -1, rfl, ?_, ?_, Or.inl ⟨hsg, rfl⟩⟩
      · field_simp
        linear_combination hoo.symm
      · simp only [dot3]
        linear_combination (1 / S) * key
    · rw [if_neg hsg]
      refine ⟨_, _, _, 1, rfl, ?_, ?_, Or.inr ⟨hsg, rfl⟩⟩
      · field_simp
        linear_combination hoo.symm
      · simp only [dot3]
        linear_combination (1 / S) * key

/-- **C7.** On a model whose vertex 0 has a normal and a UV, after
`generate_tangents` every vertex carrying a normal stores either the
fallback tangent `(0, 0, 0, 1)` — taken exactly when the square root of the
squared length of the Gram-Schmidt-orthogonalized accumulated tangent is
below `1e-8` — or a 4-tuple whose xyz part is unit length and orthogonal to
the vertex normal, with fourth component `-1` iff
`dot(cross(normal, accumulated tangent), accumulated bitangent) < 0` and
`+1` otherwise; and a triangle whose UV determinant satisfies
`abs(du1 * dv2 - du2 * dv1) < 1e-8` contributes nothing to any
accumulator (and does not crash the pass). -/
theorem c7_tangent_spec (model : IntermediateModel) (sqrtFn : ℚ → ℚ)
    (t1 t2 : List V3) (model' : IntermediateModel)
    (hacc : accumAll model = some (t1, t2))
    (hgen : generate_tangents model sqrtFn = some model')
    (h0 : 0 < model.vertices.length)
    (hn0 : (model.vertices.getD 0 default).normal ≠ none)
    (hu0 : (model.vertices.getD 0 default).uv ≠ none)
    (hnorm : ∀ i n, i < model.vertices.length →
      (model.vertices.getD i default).normal = some n → dot3 n n = 1)
    (hsqrt : ∀ i, i < model.vertices.length →
      0 ≤ sqrtFn (orthoSq t1 (model.vertices.getD i default) i) ∧
      sqrtFn (orthoSq t1 (model.vertices.getD i default) i) *
          sqrtFn (orthoSq t1 (model.vertices.getD i default) i) =
        orthoSq t1 (model.vertices.getD i default) i) :
    (∀ i n, i < model.vertices.length →
      (model.vertices.getD i default).normal = some n →
      (sqrtFn (orthoSq t1 (model.vertices.getD i default) i) < TAN_EPS →
        (model'.vertices.getD i default).tangent = some (0, 0, 0, 1)) ∧
      (¬ sqrtFn (orthoSq t1 (model.vertices.getD i default) i) < TAN_EPS →
        ∃ tx ty tz s,
          (model'.vertices.getD i default).tangent = some (tx, ty, tz, s) ∧
          tx * tx + ty * ty + tz * tz = 1 ∧
          dot3 n (tx, ty, tz) = 0 ∧
          ((dot3 (cross3 n (t1.getD i (0, 0, 0))) (t2.getD i (0, 0, 0)) < 0 ∧
              s = -1) ∨
           (¬ dot3 (cross3 n (t1.getD i (0, 0, 0))) (t2.getD i (0, 0, 0)) < 0 ∧
              s = 1)))) ∧
    (∀ st tri d, triDet model tri = some d → |d| < TAN_EPS →
      accumTri model st tri = some st) := by
  have hmv : model'.vertices =
      model.vertices.enum.map (fun p => finalizeVertex sqrtFn t1 t2 p.1 p.2) := by
    unfold generate_tangents at hgen
    rw [if_neg (by omega), if_neg (not_or.mpr ⟨hn0, hu0⟩), hacc] at hgen
    exact (congrArg IntermediateModel.vertices (Option.some.inj hgen)).symm
  constructor
  · intro i n hi hvn
    have hgd : model'.vertices.getD i default =
        finalizeVertex sqrtFn t1 t2 i (model.vertices.getD i default) := by
      rw [hmv]; exact getD_enum_map _ i default default _ hi
    rw [hgd]
    exact finalizeVertex_spec sqrtFn t1 t2 i _ n hvn (hnorm i n hi hvn)
      (hsqrt i hi).1 (hsqrt i hi).2
  · intro st tri d hdet hlt
    unfold triDet at hdet
    unfold accumTri
    cases h1 : model.vertices.get? tri.1 with
    | none => rw [h1] at hdet; simp at hdet
    | some v0 =>
      rw [h1] at hdet
      simp only [Option.some_bind] at hdet ⊢
      cases h2 : model.vertices.get? tri.2.1 with
      | none => rw [h2] at hdet; simp at hdet
      | some v1 =>
        rw [h2] at hdet
        simp only [Option.some_bind] at hdet ⊢
        cases h3 : model.vertices.get? tri.2.2 with
        | none => rw [h3] at hdet; simp at hdet
        | some v2 =>
          rw [h3] at hdet
          simp only [Option.some_bind] at hdet ⊢
          cases h4 : v0.uv with
          | none => rw [h4] at hdet; simp at hdet
          | some uv0 =>
            rw [h4] at hdet
            simp only [Option.some_bind] at hdet ⊢
            cases h5 : v1.uv with
            | none => rw [h5] at hdet; simp at hdet
            | some uv1 =>
              rw [h5] at hdet
              simp only [Option.some_bind] at hdet ⊢
              cases h6 : v2.uv with
              | none => rw [h6] at hdet; simp at hdet
              | some uv2 =>
                rw [h6] at hdet
                simp only [Option.some_bind] at hdet ⊢
                rw [if_pos (by rw [Option.some.inj hdet]; exact hlt)]

/-- Witness model: one vertex with unit normal `(0, 1, 0)` and a UV, no
triangles, so the accumulated tangent is zero and the fallback fires. -/
def wVert : IntermediateVertex := { normal := some (0, 1, 0), uv := some (0, 0) }

def wModel : IntermediateModel := { vertices := [wVert] }

def wSqrt : ℚ → ℚ := fun x => x

def wOut : IntermediateVertex :=
  { normal := some (0, 1, 0)
    uv := some (0, 0)
    tangent := some (0, 0, 0, 1) }

def wModelOut : IntermediateModel := { vertices := [wOut] }

theorem c7_tangent_spec_witness :
    generate_tangents wModel wSqrt = some wModelOut ∧
    (wModelOut.vertices.getD 0 default).tangent = some (0, 0, 0, 1) := by
  have hacc : accumAll wModel = some ([(0, 0, 0)], [(0, 0, 0)]) := rfl
  have hgen : generate_tangents wModel wSqrt = some wModelOut := by
    norm_num [generate_tangents, accumAll, wModel, wVert, wSqrt, wModelOut,
      wOut, finalizeVertex, orthoT, dot3, TAN_EPS, List.enum, List.enumFrom]
    rintro (h | h) <;> exact Option.noConfusion h
  have hnorm : ∀ i n, i < wModel.vertices.length →
      (wModel.vertices.getD i default).normal = some n → dot3 n n = 1 := by
    intro i n hi hn
    rw [show wModel.vertices.length = 1 from rfl, Nat.lt_one_iff] at hi
    subst hi
    simp [wModel, wVert] at hn
    rw [← hn]
    norm_num [dot3]
  have hsqrt : ∀ i, i < wModel.vertices.length →
      0 ≤ wSqrt (orthoSq [(0, 0, 0)] (wModel.vertices.getD i default) i) ∧
      wSqrt (orthoSq [(0, 0, 0)] (wModel.vertices.getD i default) i) *
          wSqrt (orthoSq [(0, 0, 0)] (wModel.vertices.getD i default) i) =
        orthoSq [(0, 0, 0)] (wModel.vertices.getD i default) i := by
    intro i hi
    rw [show wModel.vertices.length = 1 from rfl, Nat.lt_one_iff] at hi
    subst hi
    norm_num [wModel, wVert, wSqrt, orthoSq, orthoT, dot3]
  exact ⟨hgen,
    ((c7_tangent_spec wModel wSqrt [(0, 0, 0)] [(0, 0, 0)] wModelOut hacc hgen
        (by norm_num [wModel]) (by simp [wModel, wVert]) (by simp [wModel, wVert])
        hnorm hsqrt).1 0 (0, 1, 0) (by norm_num [wModel])
        (by simp [wModel, wVert])).1
      (by norm_num [wModel, wVert, wSqrt, orthoSq, orthoT, dot3, TAN_EPS])⟩

end Tangents

namespace Optimize

/-! ### Embedding of `src/mesh/optimize.py` (`optimize_triangles`, Tom
Forsyth's vertex-cache optimizer).

Python floats are `ℚ`; the score function `_vertex_score` involves
fractional powers, so the two `**` calls are an explicit parameter
`powFn`, and `optimize_triangles` is parameterized over the whole
per-vertex score function.  Python's negative list indexing (the code
leaves `best_tri = -1` when no dirty triangle qualifies, and then both
`emitted[best_tri]` and `triangles[best_tri]` alias the *last* element) is
modelled by `pyIdx`/`pyGet`/`pySet`.  The `while` loop is driven by fuel
`tri_count`, which is exact: each iteration emits one triangle and the
loop stops when `emitted_count` reaches `tri_count`; the `break` statement
is the `none` branch of `emitStep`.  The two Python `set()`s are modelled
as insertion-ordered duplicate-free lists; the code's results do not
depend on the iteration order of `dirty_verts` (independent updates), and
the theorems proved here are insensitive to the order of `dirty_tris`
(CPython's set iteration order for small ints is implementation-defined).
The local `new_verts` list of the source is dead code (never read) and is
omitted. -/

def CACHE_SIZE : Nat := 32

def _LAST_TRI_SCORE : ℚ := 3 / 4

def _VALENCE_BOOST_SCALE : ℚ := 2

/-- `_vertex_score`, with `x ** y` abstracted as `powFn x y`
(`_CACHE_DECAY_POWER = 1.5`, `_VALENCE_BOOST_POWER = -0.5`). -/
def _vertex_score (powFn : ℚ → ℚ → ℚ) (cache_position active_tri_count : Int) : ℚ :=
  if active_tri_count = 0 then -1
  else
    (if 0 ≤ cache_position then
      if cache_position < 3 then _LAST_TRI_SCORE
      else powFn (1 - ((cache_position : ℚ) - 3) / ((CACHE_SIZE : ℚ) - 3)) (3 / 2)
     else 0) +
    _VALENCE_BOOST_SCALE * powFn (active_tri_count : ℚ) (-(1 / 2))

abbrev Tri := Nat × Nat × Nat

/-- Python index resolution: a negative index counts from the end. -/
def pyIdx (len : Nat) (i : Int) : Nat :=
  (if i < 0 then (len : Int) + i else i).toNat

def pyGet {α : Type} (l : List α) (i : Int) (d : α) : α :=
  l.getD (pyIdx l.length i) d

def pySet {α : Type} (l : List α) (i : Int) (x : α) : List α :=
  l.set (pyIdx l.length i) x

/-- The three vertex slots of a triangle, in order. -/
def comps (tri : Tri) : List Nat := [tri.1, tri.2.1, tri.2.2]

/-- `vert_tris` construction: per vertex, the triangle indices using it
(one entry per occurrence). -/
def buildVertTris (triangles : List Tri) (n : Nat) : List (List Nat) :=
  triangles.enum.foldl
    (fun vt p =>
      (comps p.2).foldl
        (fun vt v => if v < n then vt.set v (vt.getD v [] ++ [p.1]) else vt) vt)
    (List.replicate n [])

/-- `sum(scores[v] for v in tri if 0 <= v < vertex_count)`. -/
def triScore (scores : List ℚ) (n : Nat) (tri : Tri) : ℚ :=
  (((comps tri).filter (fun v => v < n)).map (fun v => scores.getD v 0)).sum

/-- The mutable loop state (`vert_tris` is immutable and passed
separately). -/
structure OptState where
  active_count : List Int
  cache_pos : List Int
  scores : List ℚ
  tri_scores : List ℚ
  emitted : List Bool
  cache : List Nat
  best_tri : Int
  result : List Tri
  emitted_count : Nat
deriving Repr, Inhabited

/-- `max(range(tri_count), key=lambda i: tri_scores[i])`: first maximal
index (raises on `tri_count = 0`, which the skip branch rules out; the
`[]` case is a dummy). -/
def pyMaxRange (tc : Nat) (ts : List ℚ) : Int :=
  match List.range tc with
  | [] => -1
  | i :: rest =>
    (rest.foldl
      (fun (p : Int × ℚ) j =>
        if ts.getD j 0 > p.2 then ((j : Int), ts.getD j 0) else p)
      ((i : Int), ts.getD i 0)).1

/-- The full-range rescan executed when the incrementally chosen
`best_tri` is already emitted: first unemitted triangle score-maximal
above the `-2.0` floor. -/
def rescan (ts : List ℚ) (emitted : List Bool) (tc : Nat) : Int × ℚ :=
  (List.range tc).foldl
    (fun (p : Int × ℚ) ti =>
      if emitted.getD ti false = false ∧ ts.getD ti 0 > p.2 then
        ((ti : Int), ts.getD ti 0)
      else p)
    (-1, -2)

/-- `active_count` decrements for the three slots of the emitted
triangle. -/
def decActive (n : Nat) (tri : Tri) (ac : List Int) : List Int :=
  (comps tri).foldl
    (fun ac v => if v < n then ac.set v (ac.getD v 0 - 1) else ac) ac

/-- `for v in old_cache: if v not in cache: cache.append(v)`. -/
def growCache (old new : List Nat) : List Nat :=
  old.foldl (fun c v => if v ∈ c then c else c ++ [v]) new

/-- A Python `set()` filled by iterated `add`, as an insertion-ordered
duplicate-free list. -/
def dedupAppend (l : List Nat) : List Nat :=
  l.foldl (fun d v => if v ∈ d then d else d ++ [v]) []

/-- Score recomputation for the dirty vertices. -/
def updScores (scoreFn : Int → Int → ℚ) (cp ac : List Int)
    (dirtyV : List Nat) (sc : List ℚ) : List ℚ :=
  dirtyV.foldl
    (fun sc v => sc.set v (scoreFn (cp.getD v (-1)) (ac.getD v 0))) sc

/-- The unemitted triangles touching a dirty vertex. -/
def collectDirtyTris (vertTris : List (List Nat)) (em : List Bool)
    (dirtyV : List Nat) : List Nat :=
  dirtyV.foldl
    (fun dt v =>
      (vertTris.getD v []).foldl
        (fun dt ti =>
          if em.getD ti false then dt
          else if ti ∈ dt then dt else dt ++ [ti]) dt)
    []

/-- Triangle-score recomputation over the dirty triangles, tracking the
best (score, index) seen, starting from `(-2.0, -1)`. -/
def updBest (triangles : List Tri) (n : Nat) (scores : List ℚ)
    (dirtyT : List Nat) (ts0 : List ℚ) : List ℚ × ℚ × Int :=
  dirtyT.foldl
    (fun acc ti =>
      let s := triScore scores n (triangles.getD ti default)
      let ts1 := acc.1.set ti s
      if s > acc.2.1 then (ts1, s, (ti : Int)) else (ts1, acc.2.1, acc.2.2))
    (ts0, -2, -1)

/-- Everything one loop iteration does after a valid `best_tri` (possibly
`-1`, aliasing the last triangle) has been resolved. -/
def emitBody (triangles : List Tri) (n : Nat) (scoreFn : Int → Int → ℚ)
    (vertTris : List (List Nat)) (st : OptState) (bt : Int) : OptState :=
  let tc := triangles.length
  let j := pyIdx tc bt
  let tri := triangles.getD j default
  let emitted := st.emitted.set j true
  let active_count := decActive n tri st.active_count
  let cache1 := growCache st.cache ((comps tri).filter (fun v => v < n))
  let cache_pos1 :=
    if CACHE_SIZE < cache1.length then
      (cache1.drop CACHE_SIZE).foldl (fun cp v => cp.set v (-1)) st.cache_pos
    else st.cache_pos
  let cache := if CACHE_SIZE < cache1.length then cache1.take CACHE_SIZE else cache1
  let cache_pos := cache.enum.foldl (fun cp p => cp.set p.2 (p.1 : Int)) cache_pos1
  let dirty_verts := dedupAppend (cache ++ (comps tri).filter (fun v => v < n))
  let scores := updScores scoreFn cache_pos active_count dirty_verts st.scores
  let dirty_tris := collectDirtyTris vertTris emitted dirty_verts
  let fin := updBest triangles n scores dirty_tris st.tri_scores
  { active_count := active_count
    cache_pos := cache_pos
    scores := scores
    tri_scores := fin.1
    emitted := emitted
    cache := cache
    best_tri := fin.2.2
    result := st.result ++ [tri]
    emitted_count := st.emitted_count + 1 }

/-- One iteration of the `while` loop; `none` is the `break`. -/
def emitStep (triangles : List Tri) (n : Nat) (scoreFn : Int → Int → ℚ)
    (vertTris : List (List Nat)) (st : OptState) : Option OptState :=
  if pyGet st.emitted st.best_tri false then
    let b := (rescan st.tri_scores st.emitted triangles.length).1
    if b < 0 then none
    else some (emitBody triangles n scoreFn vertTris st b)
  else some (emitBody triangles n scoreFn vertTris st st.best_tri)

def optLoop (triangles : List Tri) (n : Nat) (scoreFn : Int → Int → ℚ)
    (vertTris : List (List Nat)) : Nat → OptState → OptState
  | 0, st => st
  | fuel + 1, st =>
    if st.emitted_count < triangles.length then
      match emitStep triangles n scoreFn vertTris st with
      | none => st
      | some st' => optLoop triangles n scoreFn vertTris fuel st'
    else st

def initState (triangles : List Tri) (n : Nat) (scoreFn : Int → Int → ℚ)
    (vertTris : List (List Nat)) : OptState :=
  let active_count := vertTris.map (fun tl => (tl.length : Int))
  let scores := (List.range n).map (fun v => scoreFn (-1) (active_count.getD v 0))
  let tri_scores := triangles.map (fun tri => triScore scores n tri)
  { active_count := active_count
    cache_pos := List.replicate n (-1)
    scores := scores
    tri_scores := tri_scores
    emitted := List.replicate triangles.length false
    cache := []
    best_tri := pyMaxRange triangles.length tri_scores
    result := []
    emitted_count := 0 }

/-- `optimize_triangles`, parameterized over the per-vertex score function
(in the source, `_vertex_score`; see `_vertex_score powFn` above). -/
def optimize_triangles (scoreFn : Int → Int → ℚ) (triangles : List Tri)
    (vertex_count : Nat) : List Tri :=
  if triangles.length ≤ 1 ∨ vertex_count ≤ CACHE_SIZE then triangles
  else
    let vertTris := buildVertTris triangles vertex_count
    (optLoop triangles vertex_count scoreFn vertTris triangles.length
      (initState triangles vertex_count scoreFn vertTris)).result

theorem getD_oob {α : Type} (l : List α) (i : Nat) (d : α) (h : l.length ≤ i) :
    l.getD i d = d := by
  simp [List.getD_eq_getElem?_getD, List.getElem?_eq_none h]

theorem getD_set_self {α : Type} (l : List α) (i : Nat) (x d : α)
    (h : i < l.length) : (l.set i x).getD i d = x := by
  simp [List.getD_eq_getElem?_getD, List.getElem?_set_self h]

theorem getD_set_diff {α : Type} (l : List α) (i j : Nat) (x d : α)
    (h : i ≠ j) : (l.set i x).getD j d = l.getD j d := by
  simp [List.getD_eq_getElem?_getD, List.getElem?_set_ne h]

/-- Generic `foldl` invariance. -/
theorem foldl_rec {α β : Type} (f : α → β → α) (l : List β) (P : α → Prop)
    (init : α) (h0 : P init) (hstep : ∀ a b, b ∈ l → P a → P (f a b)) :
    P (l.foldl f init) := by
  induction l generalizing init with
  | nil => exact h0
  | cons x t ih =>
    exact ih (f init x) (hstep init x (List.mem_cons_self x t) h0)
      fun a b hb => hstep a b (List.mem_cons_of_mem x hb)

/-- Reading after a fold of writes whose written value depends only on the
index: last write wins, and all writes at one index agree. -/
theorem foldl_write_getD {α : Type} (g : Nat → α) :
    ∀ (l : List Nat) (xs : List α) (d : α) (v : Nat),
    (l.foldl (fun a b => a.set b (g b)) xs).getD v d =
      if v ∈ l ∧ v < xs.length then g v else xs.getD v d
  | [], xs, d, v => by simp
  | x :: t, xs, d, v => by
    rw [List.foldl_cons, foldl_write_getD g t (xs.set x (g x)) d v, List.length_set]
    by_cases hvl : v < xs.length
    · by_cases hvt : v ∈ t
      · simp [hvt, hvl]
      · by_cases hvx : v = x
        · subst hvx
          simp [hvt, hvl, getD_set_self _ _ _ _ hvl]
        · simp [hvt, hvl, hvx, List.getElem_set_ne (Ne.symm hvx)]
    · have hd : (xs.set x (g x)).getD v d = xs.getD v d := by
        rw [getD_oob _ _ _ (by simpa using not_lt.mp hvl),
          getD_oob _ _ _ (not_lt.mp hvl)]
      rw [if_neg (fun hc => hvl hc.2), if_neg (fun hc => hvl hc.2)]
      exact hd

theorem count_true_set : ∀ (l : List Bool) (j : Nat), j < l.length →
    l.getD j false = false → (l.set j true).count true = l.count true + 1
  | [], j, hj, _ => by simp at hj
  | b :: t, 0, _, hf => by
    have hb : b = false := by simpa using hf
    subst hb
    simp [List.count_cons]
  | b :: t, j + 1, hj, hf => by
    have hk : j < t.length := by simpa using hj
    have hf' : t.getD j false = false := hf
    simp only [List.set_cons_succ, List.count_cons, count_true_set t j hk hf']
    omega

/-- Splitting one kept element out of a filter over a duplicate-free
list. -/
theorem filter_perm_of_mem : ∀ {l : List Nat}, l.Nodup → ∀ {j : Nat}, j ∈ l →
    ∀ {p : Nat → Bool}, p j = true →
    (l.filter p).Perm (j :: l.filter (fun x => p x && (x != j)))
  | [], _, _, hj, _, _ => absurd hj (List.not_mem_nil _)
  | a :: t, hnd, j, hj, p, hpj => by
    rcases List.mem_cons.mp hj with rfl | hjt
    · have hnt : j ∉ t := (List.nodup_cons.mp hnd).1
      have hq : t.filter (fun x => p x && (x != j)) = t.filter p :=
        List.filter_congr fun x hx => by
          have : x ≠ j := fun e => hnt (e ▸ hx)
          simp [this]
      rw [List.filter_cons, List.filter_cons, if_pos (by simp [hpj]),
        if_neg (by simp), hq]
    · have hnd' := (List.nodup_cons.mp hnd).2
      have hne : a ≠ j := fun e => (List.nodup_cons.mp hnd).1 (e ▸ hjt)
      rw [List.filter_cons, List.filter_cons]
      by_cases hpa : p a = true
      · rw [if_pos (by simp [hpa]), if_pos (by simp [hpa, hne])]
        exact ((filter_perm_of_mem hnd' hjt hpj).cons a).trans
          (List.Perm.swap _ _ _)
      · rw [if_neg (by simpa using hpa),
          if_neg (by simp [Bool.eq_false_iff.mpr hpa])]
        exact filter_perm_of_mem hnd' hjt hpj

theorem map_getD_range {α : Type} (l : List α) (d : α) :
    (List.range l.length).map (fun i => l.getD i d) = l := by
  apply List.ext_getElem
  · simp
  · intro i h1 h2
    simp [List.getD_eq_getElem?_getD, List.getElem?_eq_getElem h2]

theorem getD_range_map {α : Type} (g : Nat → α) (n v : Nat) (d : α)
    (h : v < n) : ((List.range n).map g).getD v d = g v := by
  simp [List.getD_eq_getElem?_getD, List.getElem?_map,
    List.getElem?_range h]

theorem getD_map_lt {α β : Type} (f : α → β) (l : List α) (i : Nat)
    (d : β) (d' : α) (h : i < l.length) :
    (l.map f).getD i d = f (l.getD i d') := by
  simp [List.getD_eq_getElem?_getD, List.getElem?_map,
    List.getElem?_eq_getElem h]

theorem one_le_map_sum {L : List Nat} {f : Nat → ℤ} {ti : Nat}
    (hmem : ti ∈ L) (hnn : ∀ x, 0 ≤ f x) (h1 : 1 ≤ f ti) :
    1 ≤ (L.map f).sum := by
  obtain ⟨s, t, rfl⟩ := List.append_of_mem hmem
  rw [List.map_append, List.sum_append, List.map_cons, List.sum_cons]
  have hs : 0 ≤ (s.map f).sum := List.sum_nonneg fun x hx => by
    obtain ⟨y, _, rfl⟩ := List.mem_map.mp hx; exact hnn y
  have ht : 0 ≤ (t.map f).sum := List.sum_nonneg fun x hx => by
    obtain ⟨y, _, rfl⟩ := List.mem_map.mp hx; exact hnn y
  linarith

/-- Multiplicity (0..3) of vertex `v` among the slots of a triangle. -/
def multZ (v : Nat) (tri : Tri) : ℤ :=
  (if tri.1 = v then 1 else 0) + (if tri.2.1 = v then 1 else 0) +
    (if tri.2.2 = v then 1 else 0)

theorem multZ_nonneg (v : Nat) (tri : Tri) : 0 ≤ multZ v tri := by
  unfold multZ; split_ifs <;> norm_num

theorem one_le_multZ {v : Nat} {tri : Tri} (h : v ∈ comps tri) :
    1 ≤ multZ v tri := by
  rcases (by simpa [comps] using h : v = tri.1 ∨ v = tri.2.1 ∨ v = tri.2.2)
    with h | h | h <;> unfold multZ <;> split_ifs <;> omega

/-- The unemitted triangle indices, in index order. -/
def unemL (tc : Nat) (em : List Bool) : List Nat :=
  (List.range tc).filter (fun ti => ! em.getD ti false)

theorem unemL_perm (tc : Nat) (em : List Bool) (j : Nat) (hj : j < tc)
    (hlen : em.length = tc) (hfalse : em.getD j false = false) :
    (unemL tc em).Perm (j :: unemL tc (em.set j true)) := by
  have h1 : ∀ x ∈ List.range tc,
      (! (em.set j true).getD x false) = ((! em.getD x false) && (x != j)) := by
    intro x _
    by_cases hxj : x = j
    · subst hxj
      rw [getD_set_self _ _ _ _ (hlen ▸ hj)]
      simp
    · rw [getD_set_diff _ _ _ _ _ (fun e => hxj e.symm)]
      simp [hxj]
  have h2 : unemL tc (em.set j true) =
      (List.range tc).filter (fun x => (! em.getD x false) && (x != j)) :=
    List.filter_congr h1
  rw [h2]
  exact filter_perm_of_mem (List.nodup_range tc) (List.mem_range.mpr hj)
    (by simpa using hfalse)

theorem foldl_write_length {α : Type} (g : Nat → α) (l : List Nat)
    (xs : List α) :
    (l.foldl (fun a b => a.set b (g b)) xs).length = xs.length :=
  foldl_rec _ l (fun a => a.length = xs.length) xs rfl
    fun a b _ h => by
      show (a.set b (g b)).length = xs.length
      rw [List.length_set]; exact h

theorem dec1_getD {n : Nat} (c : Nat) (ac : List Int) (v : Nat)
    (hlen : ac.length = n) (hv : v < n) :
    (if c < n then ac.set c (ac.getD c 0 - 1) else ac).getD v 0 =
      ac.getD v 0 - (if c = v then 1 else 0) := by
  by_cases hc : c < n
  · rw [if_pos hc]
    by_cases hcv : c = v
    · subst hcv
      rw [getD_set_self _ _ _ _ (hlen ▸ hv), if_pos rfl]
    · rw [getD_set_diff _ _ _ _ _ hcv, if_neg hcv, sub_zero]
  · rw [if_neg hc, if_neg (fun e => hc (by rw [e]; exact hv)), sub_zero]

theorem dec1_length {n : Nat} (c : Nat) (ac : List Int) :
    (if c < n then ac.set c (ac.getD c 0 - 1) else ac).length = ac.length := by
  split_ifs <;> simp

theorem decActive_length (n : Nat) (tri : Tri) (ac : List Int) :
    (decActive n tri ac).length = ac.length := by
  unfold decActive comps
  simp only [List.foldl_cons, List.foldl_nil]
  rw [dec1_length, dec1_length, dec1_length]

theorem decActive_getD (n : Nat) (tri : Tri) (ac : List Int) (v : Nat)
    (hlen : ac.length = n) (hv : v < n) :
    (decActive n tri ac).getD v 0 = ac.getD v 0 - multZ v tri := by
  unfold decActive comps
  simp only [List.foldl_cons, List.foldl_nil]
  rw [dec1_getD _ _ _ (by rw [dec1_length, dec1_length, hlen]) hv,
    dec1_getD _ _ _ (by rw [dec1_length, hlen]) hv,
    dec1_getD _ _ _ hlen hv]
  unfold multZ
  ring

theorem growCache_mem {n : Nat} (old new : List Nat)
    (ho : ∀ v ∈ old, v < n) (hn : ∀ v ∈ new, v < n) :
    ∀ v ∈ growCache old new, v < n := by
  unfold growCache
  refine foldl_rec _ old (fun c => ∀ v ∈ c, v < n) new hn ?_
  intro c b hb hc v hv
  by_cases hbc : b ∈ c
  · rw [if_pos hbc] at hv; exact hc v hv
  · rw [if_neg hbc] at hv
    rcases List.mem_append.mp hv with h | h
    · exact hc v h
    · rw [List.mem_singleton.mp h]; exact ho b hb

theorem dedupAppend_mem {n : Nat} (l : List Nat) (h : ∀ v ∈ l, v < n) :
    ∀ v ∈ dedupAppend l, v < n := by
  unfold dedupAppend
  refine foldl_rec _ l (fun c => ∀ v ∈ c, v < n) [] (by simp) ?_
  intro c b hb hc v hv
  by_cases hbc : b ∈ c
  · rw [if_pos hbc] at hv; exact hc v hv
  · rw [if_neg hbc] at hv
    rcases List.mem_append.mp hv with h2 | h2
    · exact hc v h2
    · rw [List.mem_singleton.mp h2]; exact h b hb

theorem updScores_getD (scoreFn : Int → Int → ℚ) (cp ac : List Int)
    (dirtyV : List Nat) (sc : List ℚ) (v : Nat) :
    (updScores scoreFn cp ac dirtyV sc).getD v 0 =
      if v ∈ dirtyV ∧ v < sc.length then
        scoreFn (cp.getD v (-1)) (ac.getD v 0)
      else sc.getD v 0 :=
  foldl_write_getD _ dirtyV sc 0 v

theorem updScores_length (scoreFn : Int → Int → ℚ) (cp ac : List Int)
    (dirtyV : List Nat) (sc : List ℚ) :
    (updScores scoreFn cp ac dirtyV sc).length = sc.length :=
  foldl_write_length _ dirtyV sc

theorem collectDirtyTris_mem {tc : Nat} (vertTris : List (List Nat))
    (em : List Bool) (dirtyV : List Nat)
    (hvt : ∀ v, ∀ ti ∈ vertTris.getD v [], ti < tc) :
    ∀ ti ∈ collectDirtyTris vertTris em dirtyV,
      ti < tc ∧ em.getD ti false = false := by
  unfold collectDirtyTris
  refine foldl_rec _ dirtyV
    (fun dt => ∀ ti ∈ dt, ti < tc ∧ em.getD ti false = false) [] (by simp) ?_
  intro dt v _ hdt
  refine foldl_rec _ (vertTris.getD v [])
    (fun dt => ∀ ti ∈ dt, ti < tc ∧ em.getD ti false = false) dt hdt ?_
  intro dt2 ti hti hdt2 x hx
  by_cases hem : em.getD ti false
  · rw [if_pos hem] at hx; exact hdt2 x hx
  · rw [if_neg hem] at hx
    by_cases hmem : ti ∈ dt2
    · rw [if_pos hmem] at hx; exact hdt2 x hx
    · rw [if_neg hmem] at hx
      rcases List.mem_append.mp hx with h2 | h2
      · exact hdt2 x h2
      · rw [List.mem_singleton.mp h2]
        exact ⟨hvt v ti hti, Bool.eq_false_iff.mpr hem⟩

theorem updBest_fst (triangles : List Tri) (n : Nat) (scores : List ℚ) :
    ∀ (dirtyT : List Nat) (acc : List ℚ × ℚ × Int),
    (dirtyT.foldl
      (fun acc ti =>
        let s := triScore scores n (triangles.getD ti default)
        let ts1 := acc.1.set ti s
        if s > acc.2.1 then (ts1, s, (ti : Int)) else (ts1, acc.2.1, acc.2.2))
      acc).1 =
      dirtyT.foldl
        (fun ts ti => ts.set ti (triScore scores n (triangles.getD ti default)))
        acc.1
  | [], acc => rfl
  | x :: t, acc => by
    rw [List.foldl_cons, List.foldl_cons, updBest_fst triangles n scores t]
    congr 1
    dsimp only
    split <;> rfl

theorem updBest_tri_scores (triangles : List Tri) (n : Nat) (scores : List ℚ)
    (dirtyT : List Nat) (ts0 : List ℚ) (ti : Nat) :
    (updBest triangles n scores dirtyT ts0).1.getD ti 0 =
      if ti ∈ dirtyT ∧ ti < ts0.length then
        triScore scores n (triangles.getD ti default)
      else ts0.getD ti 0 := by
  unfold updBest
  rw [updBest_fst, foldl_write_getD]

theorem updBest_tri_scores_length (triangles : List Tri) (n : Nat)
    (scores : List ℚ) (dirtyT : List Nat) (ts0 : List ℚ) :
    (updBest triangles n scores dirtyT ts0).1.length = ts0.length := by
  unfold updBest
  rw [updBest_fst]
  exact foldl_write_length _ dirtyT ts0

theorem updBest_best_fold_bound {tc : Nat} (triangles : List Tri) (n : Nat)
    (scores : List ℚ) :
    ∀ (dirtyT : List Nat) (acc : List ℚ × ℚ × Int),
    (∀ ti ∈ dirtyT, ti < tc) → -1 ≤ acc.2.2 → acc.2.2 < (tc : Int) →
    -1 ≤ (dirtyT.foldl
        (fun acc ti =>
          let s := triScore scores n (triangles.getD ti default)
          let ts1 := acc.1.set ti s
          if s > acc.2.1 then (ts1, s, (ti : Int)) else (ts1, acc.2.1, acc.2.2))
        acc).2.2 ∧
      (dirtyT.foldl
        (fun acc ti =>
          let s := triScore scores n (triangles.getD ti default)
          let ts1 := acc.1.set ti s
          if s > acc.2.1 then (ts1, s, (ti : Int)) else (ts1, acc.2.1, acc.2.2))
        acc).2.2 < (tc : Int)
  | [], acc, _, h1, h2 => ⟨h1, h2⟩
  | x :: t, acc, hmem, h1, h2 => by
    rw [List.foldl_cons]
    have hx : x < tc := hmem x (List.mem_cons_self x t)
    have hmem' : ∀ ti ∈ t, ti < tc :=
      fun a ha => hmem a (List.mem_cons_of_mem x ha)
    by_cases hc : triScore scores n (triangles.getD x default) > acc.2.1
    · rw [if_pos hc]
      exact updBest_best_fold_bound triangles n scores t _ hmem'
        (by dsimp only; omega) (by dsimp only; exact_mod_cast hx)
    · rw [if_neg hc]
      exact updBest_best_fold_bound triangles n scores t _ hmem' h1 h2

theorem updBest_best_bound {tc : Nat} (triangles : List Tri) (n : Nat)
    (scores : List ℚ) (dirtyT : List Nat) (ts0 : List ℚ)
    (hd : ∀ ti ∈ dirtyT, ti < tc) (htc : 1 ≤ tc) :
    -1 ≤ (updBest triangles n scores dirtyT ts0).2.2 ∧
      (updBest triangles n scores dirtyT ts0).2.2 < (tc : Int) := by
  unfold updBest
  exact updBest_best_fold_bound triangles n scores dirtyT (ts0, -2, -1) hd
    (by dsimp only; omega) (by dsimp only; omega)

theorem pyIdx_lt (tc : Nat) (bt : Int) (h1 : -1 ≤ bt) (h2 : bt < (tc : Int))
    (htc : 1 ≤ tc) : pyIdx tc bt < tc := by
  unfold pyIdx
  split_ifs <;> omega

theorem pyMaxRange_bound (tc : Nat) (ts : List ℚ) (htc : 1 ≤ tc) :
    -1 ≤ pyMaxRange tc ts ∧ pyMaxRange tc ts < (tc : Int) := by
  unfold pyMaxRange
  cases h : List.range tc with
  | nil =>
    have := List.length_range tc
    rw [h] at this
    simp at this
    omega
  | cons i rest =>
    have hmem : ∀ j, j ∈ List.range tc → j < tc := fun j hj =>
      List.mem_range.mp hj
    have hi : i < tc := hmem i (h ▸ List.mem_cons_self i rest)
    refine foldl_rec _ rest (fun p : Int × ℚ => -1 ≤ p.1 ∧ p.1 < (tc : Int))
      _ ⟨by dsimp only; omega, by dsimp only; exact_mod_cast hi⟩ ?_
    intro p j hj hp
    have hjtc : j < tc := hmem j (h ▸ List.mem_cons_of_mem i hj)
    by_cases hc : ts.getD j 0 > p.2
    · simp only [hc, if_pos]
      exact ⟨by omega, by exact_mod_cast hjtc⟩
    · simp only [hc, if_neg, not_false_iff]
      exact hp

theorem rescan_fold (ts : List ℚ) (em : List Bool) (tc : Nat) :
    ∀ (l : List Nat) (p : Int × ℚ),
    (∀ ti ∈ l, ti < tc) →
    ((0 ≤ p.1 ∧ p.1 < (tc : Int) ∧ em.getD p.1.toNat false = false) ∨
     (p.2 = -2 ∧ ∃ ti ∈ l, em.getD ti false = false ∧ ts.getD ti 0 > -2)) →
    (0 ≤ (l.foldl
        (fun (p : Int × ℚ) ti =>
          if em.getD ti false = false ∧ ts.getD ti 0 > p.2 then
            ((ti : Int), ts.getD ti 0)
          else p) p).1 ∧
      (l.foldl
        (fun (p : Int × ℚ) ti =>
          if em.getD ti false = false ∧ ts.getD ti 0 > p.2 then
            ((ti : Int), ts.getD ti 0)
          else p) p).1 < (tc : Int) ∧
      em.getD (l.foldl
        (fun (p : Int × ℚ) ti =>
          if em.getD ti false = false ∧ ts.getD ti 0 > p.2 then
            ((ti : Int), ts.getD ti 0)
          else p) p).1.toNat false = false)
  | [], p, _, hstart => by
    rcases hstart with h | h
    · exact h
    · exact absurd h.2 (by simp)
  | x :: l, p, hmem, hstart => by
    rw [List.foldl_cons]
    have hx : x < tc := hmem x (List.mem_cons_self x l)
    rcases hstart with h | ⟨hp2, ti, hti, hem, hts⟩
    · by_cases hc : em.getD x false = false ∧ ts.getD x 0 > p.2
      · rw [if_pos hc]
        refine rescan_fold ts em tc l _ (fun a ha => hmem a (List.mem_cons_of_mem x ha)) (Or.inl ?_)
        exact ⟨by dsimp only; omega, by dsimp only; exact_mod_cast hx,
          by simpa using hc.1⟩
      · rw [if_neg hc]
        exact rescan_fold ts em tc l _ (fun a ha => hmem a (List.mem_cons_of_mem x ha)) (Or.inl h)
    · rcases List.mem_cons.mp hti with rfl | htil
      · rw [if_pos ⟨hem, by rw [hp2]; exact hts⟩]
        refine rescan_fold ts em tc l _ (fun a ha => hmem a (List.mem_cons_of_mem ti ha)) (Or.inl ?_)
        exact ⟨by dsimp only; omega, by dsimp only; exact_mod_cast hx,
          by simpa using hem⟩
      · by_cases hc : em.getD x false = false ∧ ts.getD x 0 > p.2
        · rw [if_pos hc]
          refine rescan_fold ts em tc l _ (fun a ha => hmem a (List.mem_cons_of_mem x ha)) (Or.inl ?_)
          exact ⟨by dsimp only; omega, by dsimp only; exact_mod_cast hx,
            by simpa using hc.1⟩
        · rw [if_neg hc]
          exact rescan_fold ts em tc l _
            (fun a ha => hmem a (List.mem_cons_of_mem x ha))
            (Or.inr ⟨hp2, ti, htil, hem, hts⟩)

theorem rescan_spec (ts : List ℚ) (em : List Bool) (tc : Nat)
    (hex : ∃ ti, ti < tc ∧ em.getD ti false = false ∧ ts.getD ti 0 > -2) :
    0 ≤ (rescan ts em tc).1 ∧ (rescan ts em tc).1 < (tc : Int) ∧
      em.getD (rescan ts em tc).1.toNat false = false := by
  obtain ⟨ti, hti, hem, hts⟩ := hex
  exact rescan_fold ts em tc (List.range tc) (-1, -2)
    (fun a ha => List.mem_range.mp ha)
    (Or.inr ⟨rfl, ti, List.mem_range.mpr hti, hem, hts⟩)

theorem triScore_nonneg_of (scores : List ℚ) (ac : List Int) (n : Nat)
    (tri : Tri)
    (hge : ∀ v, v < n → v ∈ comps tri → 1 ≤ ac.getD v 0)
    (hvs : ∀ v, v < n → 1 ≤ ac.getD v 0 → 0 ≤ scores.getD v 0) :
    0 ≤ triScore scores n tri := by
  unfold triScore
  apply List.sum_nonneg
  intro x hx
  obtain ⟨v, hvmem, rfl⟩ := List.mem_map.mp hx
  have hm := List.mem_filter.mp hvmem
  have hvn : v < n := by simpa using hm.2
  exact hvs v hvn (hge v hvn hm.1)

theorem cacheStage_mem {n : Nat} (cache : List Nat) (tri : Tri)
    (hc : ∀ v ∈ cache, v < n) :
    ∀ v ∈ (if CACHE_SIZE <
          (growCache cache ((comps tri).filter (fun v => v < n))).length then
        (growCache cache ((comps tri).filter (fun v => v < n))).take CACHE_SIZE
      else growCache cache ((comps tri).filter (fun v => v < n))), v < n := by
  have h1 : ∀ v ∈ growCache cache ((comps tri).filter (fun v => v < n)), v < n :=
    growCache_mem _ _ hc fun v hv => by simpa using (List.mem_filter.mp hv).2
  intro v hv
  split at hv
  · exact h1 v (List.take_subset _ _ hv)
  · exact h1 v hv

/-- The loop invariant tying the mutable state to the unemitted triangle
set. -/
structure Inv (triangles : List Tri) (n : Nat) (st : OptState) : Prop where
  hel : st.emitted.length = triangles.length
  htl : st.tri_scores.length = triangles.length
  hal : st.active_count.length = n
  hsl : st.scores.length = n
  hcm : ∀ v ∈ st.cache, v < n
  hcount : st.emitted_count = st.emitted.count true
  hbt1 : -1 ≤ st.best_tri
  hbt2 : st.best_tri < (triangles.length : Int)
  hperm : (st.result ++ (unemL triangles.length st.emitted).map
      (fun ti => triangles.getD ti default)).Perm triangles
  hact : ∀ v, v < n → st.active_count.getD v 0 =
      ((unemL triangles.length st.emitted).map
        (fun ti => multZ v (triangles.getD ti default))).sum
  hvs : ∀ v, v < n → 1 ≤ st.active_count.getD v 0 → 0 ≤ st.scores.getD v 0
  hts : ∀ ti, ti < triangles.length → st.emitted.getD ti false = false →
      0 ≤ st.tri_scores.getD ti 0

theorem emitBody_inv (triangles : List Tri) (n : Nat)
    (scoreFn : Int → Int → ℚ) (vertTris : List (List Nat)) (st : OptState)
    (bt : Int)
    (hscore : ∀ cp ac, 1 ≤ ac → 0 ≤ scoreFn cp ac)
    (hvt : ∀ v, ∀ ti ∈ vertTris.getD v [], ti < triangles.length)
    (hInv : Inv triangles n st)
    (htc : 1 ≤ triangles.length)
    (hb1 : -1 ≤ bt) (hb2 : bt < (triangles.length : Int))
    (hunem : st.emitted.getD (pyIdx triangles.length bt) false = false) :
    Inv triangles n (emitBody triangles n scoreFn vertTris st bt) ∧
    (emitBody triangles n scoreFn vertTris st bt).emitted_count =
      st.emitted_count + 1 := by
  have hj : pyIdx triangles.length bt < triangles.length :=
    pyIdx_lt _ _ hb1 hb2 htc
  have hF1 : (emitBody triangles n scoreFn vertTris st bt).emitted =
      st.emitted.set (pyIdx triangles.length bt) true := rfl
  have hF2 : (emitBody triangles n scoreFn vertTris st bt).result =
      st.result ++ [triangles.getD (pyIdx triangles.length bt) default] := rfl
  have hF3 : (emitBody triangles n scoreFn vertTris st bt).emitted_count =
      st.emitted_count + 1 := rfl
  have hF4 : (emitBody triangles n scoreFn vertTris st bt).active_count =
      decActive n (triangles.getD (pyIdx triangles.length bt) default)
        st.active_count := rfl
  obtain ⟨cp, dv, hdvmem, hF6, hF7, hF8, hF5⟩ :
      ∃ (cp : List Int) (dv : List Nat),
        (∀ v ∈ dv, v < n) ∧
        (emitBody triangles n scoreFn vertTris st bt).scores =
          updScores scoreFn cp
            (decActive n
              (triangles.getD (pyIdx triangles.length bt) default)
              st.active_count) dv st.scores ∧
        (emitBody triangles n scoreFn vertTris st bt).tri_scores =
          (updBest triangles n
            (emitBody triangles n scoreFn vertTris st bt).scores
            (collectDirtyTris vertTris
              (st.emitted.set (pyIdx triangles.length bt) true) dv)
            st.tri_scores).1 ∧
        (emitBody triangles n scoreFn vertTris st bt).best_tri =
          (updBest triangles n
            (emitBody triangles n scoreFn vertTris st bt).scores
            (collectDirtyTris vertTris
              (st.emitted.set (pyIdx triangles.length bt) true) dv)
            st.tri_scores).2.2 ∧
        (∀ v ∈ (emitBody triangles n scoreFn vertTris st bt).cache, v < n) := by
    refine ⟨_, _, ?_, rfl, rfl, rfl, ?_⟩
    · apply dedupAppend_mem
      intro v hv
      rcases List.mem_append.mp hv with h | h
      · exact cacheStage_mem st.cache _ hInv.hcm v h
      · simpa using (List.mem_filter.mp h).2
    · exact cacheStage_mem st.cache _ hInv.hcm
  have hsplit := unemL_perm triangles.length st.emitted
    (pyIdx triangles.length bt) hj hInv.hel hunem
  have hact' : ∀ v, v < n →
      (emitBody triangles n scoreFn vertTris st bt).active_count.getD v 0 =
      ((unemL triangles.length
          (st.emitted.set (pyIdx triangles.length bt) true)).map
        (fun ti => multZ v (triangles.getD ti default))).sum := by
    intro v hv
    rw [hF4, decActive_getD _ _ _ _ hInv.hal hv, hInv.hact v hv]
    have hsum := (hsplit.map
      (fun ti => multZ v (triangles.getD ti default))).sum_eq
    simp only [List.map_cons, List.sum_cons] at hsum
    rw [hsum]
    ring
  have hvs' : ∀ v, v < n →
      1 ≤ (emitBody triangles n scoreFn vertTris st bt).active_count.getD v 0 →
      0 ≤ (emitBody triangles n scoreFn vertTris st bt).scores.getD v 0 := by
    intro v hv h1
    rw [hF6, updScores_getD]
    by_cases hdvv : v ∈ dv ∧ v < st.scores.length
    · rw [if_pos hdvv]
      rw [hF4] at h1
      exact hscore _ _ h1
    · rw [if_neg hdvv]
      rw [hF4, decActive_getD _ _ _ _ hInv.hal hv] at h1
      have := multZ_nonneg v
        (triangles.getD (pyIdx triangles.length bt) default)
      exact hInv.hvs v hv (by linarith)
  have hem_old : ∀ ti, ti < triangles.length →
      (st.emitted.set (pyIdx triangles.length bt) true).getD ti false = false →
      st.emitted.getD ti false = false := by
    intro ti _ hem'
    by_cases hij : ti = pyIdx triangles.length bt
    · subst hij
      rw [getD_set_self _ _ _ _ (hInv.hel ▸ hj)] at hem'
      exact absurd hem' (by simp)
    · rw [getD_set_diff _ _ _ _ _ (fun e => hij e.symm)] at hem'
      exact hem'
  refine ⟨⟨?_, ?_, ?_, ?_, hF5, ?_, ?_, ?_, ?_, hact', hvs', ?_⟩, hF3⟩
  · rw [hF1, List.length_set]; exact hInv.hel
  · rw [hF7, updBest_tri_scores_length]; exact hInv.htl
  · rw [hF4, decActive_length]; exact hInv.hal
  · rw [hF6, updScores_length]; exact hInv.hsl
  · rw [hF3, hF1,
      count_true_set st.emitted _ (hInv.hel ▸ hj) hunem, hInv.hcount]
  · rw [hF8]
    exact (updBest_best_bound triangles n _ _ _
      (fun ti hti => (collectDirtyTris_mem vertTris _ dv hvt ti hti).1)
      htc).1
  · rw [hF8]
    exact (updBest_best_bound triangles n _ _ _
      (fun ti hti => (collectDirtyTris_mem vertTris _ dv hvt ti hti).1)
      htc).2
  · rw [hF2, hF1, List.append_assoc]
    have hmap := hsplit.map (fun ti => triangles.getD ti default)
    simp only [List.map_cons] at hmap
    exact ((List.Perm.append_left st.result hmap.symm).trans hInv.hperm)
  · intro ti hti hem'
    rw [hF1] at hem'
    rw [hF7, updBest_tri_scores]
    by_cases hdt : ti ∈ collectDirtyTris vertTris
        (st.emitted.set (pyIdx triangles.length bt) true) dv ∧
        ti < st.tri_scores.length
    · rw [if_pos hdt]
      refine triScore_nonneg_of _
        (emitBody triangles n scoreFn vertTris st bt).active_count n _
        ?_ hvs'
      intro v hv hvc
      rw [hact' v hv]
      refine one_le_map_sum ?_ (fun x => multZ_nonneg v _) (one_le_multZ hvc)
      exact List.mem_filter.mpr
        ⟨List.mem_range.mpr hti, by simpa using hem'⟩
    · rw [if_neg hdt]
      exact hInv.hts ti hti (hem_old ti hti hem')

theorem exists_false_of_count_lt : ∀ (l : List Bool),
    l.count true < l.length → ∃ i, i < l.length ∧ l.getD i false = false
  | [], h => absurd h (by simp)
  | b :: t, h => by
    cases b with
    | false => exact ⟨0, by simp, rfl⟩
    | true =>
      have ht : t.count true < t.length := by
        simp [List.count_cons] at h
        simpa using h
      obtain ⟨i, hi, hgi⟩ := exists_false_of_count_lt t ht
      exact ⟨i + 1, by simpa using hi, hgi⟩

theorem result_perm_of_done (triangles : List Tri) (n : Nat) (st : OptState)
    (hInv : Inv triangles n st)
    (hdone : triangles.length ≤ st.emitted_count) :
    st.result.Perm triangles := by
  have hle := List.count_le_length true st.emitted
  have hcnt : st.emitted.count true = st.emitted.length := by
    have := hInv.hcount
    have := hInv.hel
    omega
  have hall := List.count_eq_length.mp hcnt
  have hnil : unemL triangles.length st.emitted = [] := by
    unfold unemL
    rw [List.filter_eq_nil_iff]
    intro a ha
    have halt : a < st.emitted.length := hInv.hel ▸ List.mem_range.mp ha
    have : st.emitted.getD a false = true := by
      rw [List.getD_eq_getElem?_getD, List.getElem?_eq_getElem halt]
      exact (hall _ (List.getElem_mem halt)).symm
    simpa using this
  have := hInv.hperm
  rw [hnil] at this
  simpa using this

theorem emitStep_progress (triangles : List Tri) (n : Nat)
    (scoreFn : Int → Int → ℚ) (vertTris : List (List Nat)) (st : OptState)
    (hscore : ∀ cp ac, 1 ≤ ac → 0 ≤ scoreFn cp ac)
    (hvt : ∀ v, ∀ ti ∈ vertTris.getD v [], ti < triangles.length)
    (hInv : Inv triangles n st)
    (hlt : st.emitted_count < triangles.length) :
    ∃ st', emitStep triangles n scoreFn vertTris st = some st' ∧
      Inv triangles n st' ∧ st'.emitted_count = st.emitted_count + 1 := by
  have htc : 1 ≤ triangles.length := by omega
  have hcnt : st.emitted.count true < st.emitted.length := by
    have := hInv.hcount
    have := hInv.hel
    omega
  obtain ⟨ti0, hti0l, hti0⟩ := exists_false_of_count_lt st.emitted hcnt
  have hti0tc : ti0 < triangles.length := hInv.hel ▸ hti0l
  have hex : ∃ ti, ti < triangles.length ∧
      st.emitted.getD ti false = false ∧ st.tri_scores.getD ti 0 > -2 := by
    refine ⟨ti0, hti0tc, hti0, ?_⟩
    have := hInv.hts ti0 hti0tc hti0
    linarith
  by_cases hcase : pyGet st.emitted st.best_tri false
  · obtain ⟨hr0, hrtc, hrunem⟩ :=
      rescan_spec st.tri_scores st.emitted triangles.length hex
    have hpy : pyIdx triangles.length
        (rescan st.tri_scores st.emitted triangles.length).1 =
        (rescan st.tri_scores st.emitted triangles.length).1.toNat := by
      unfold pyIdx
      rw [if_neg (not_lt.mpr hr0)]
    have heq : emitStep triangles n scoreFn vertTris st =
        some (emitBody triangles n scoreFn vertTris st
          (rescan st.tri_scores st.emitted triangles.length).1) := by
      unfold emitStep
      rw [if_pos hcase]
      exact if_neg (not_lt.mpr hr0)
    have h := emitBody_inv triangles n scoreFn vertTris st
      (rescan st.tri_scores st.emitted triangles.length).1 hscore hvt hInv htc
      (by omega) hrtc (by rw [hpy]; exact hrunem)
    exact ⟨_, heq, h.1, h.2⟩
  · have heq : emitStep triangles n scoreFn vertTris st =
        some (emitBody triangles n scoreFn vertTris st st.best_tri) := by
      unfold emitStep
      exact if_neg hcase
    have hunem : st.emitted.getD (pyIdx triangles.length st.best_tri) false
        = false := by
      unfold pyGet at hcase
      rw [hInv.hel] at hcase
      exact Bool.eq_false_iff.mpr hcase
    have h := emitBody_inv triangles n scoreFn vertTris st st.best_tri hscore
      hvt hInv htc hInv.hbt1 hInv.hbt2 hunem
    exact ⟨_, heq, h.1, h.2⟩

theorem optLoop_perm (triangles : List Tri) (n : Nat)
    (scoreFn : Int → Int → ℚ) (vertTris : List (List Nat))
    (hscore : ∀ cp ac, 1 ≤ ac → 0 ≤ scoreFn cp ac)
    (hvt : ∀ v, ∀ ti ∈ vertTris.getD v [], ti < triangles.length) :
    ∀ (fuel : Nat) (st : OptState), Inv triangles n st →
    triangles.length ≤ st.emitted_count + fuel →
    (optLoop triangles n scoreFn vertTris fuel st).result.Perm triangles
  | 0, st, hInv, hfuel =>
    result_perm_of_done triangles n st hInv (by omega)
  | fuel + 1, st, hInv, hfuel => by
    by_cases hlt : st.emitted_count < triangles.length
    · obtain ⟨st', hstep, hInv', hcnt⟩ :=
        emitStep_progress triangles n scoreFn vertTris st hscore hvt hInv hlt
      have hred : optLoop triangles n scoreFn vertTris (fuel + 1) st =
          optLoop triangles n scoreFn vertTris fuel st' := by
        simp only [optLoop]
        rw [if_pos hlt, hstep]
      rw [hred]
      exact optLoop_perm triangles n scoreFn vertTris hscore hvt fuel st'
        hInv' (by omega)
    · have hred : optLoop triangles n scoreFn vertTris (fuel + 1) st = st := by
        simp only [optLoop]
        rw [if_neg hlt]
      rw [hred]
      exact result_perm_of_done triangles n st hInv (by omega)

def multN (v : Nat) (tri : Tri) : Nat :=
  (if tri.1 = v then 1 else 0) + (if tri.2.1 = v then 1 else 0) +
    (if tri.2.2 = v then 1 else 0)

theorem multN_cast (v : Nat) (tri : Tri) :
    ((multN v tri : Nat) : ℤ) = multZ v tri := by
  unfold multN multZ
  split_ifs <;> norm_num

theorem buildVT_app1 {n : Nat} (c i : Nat) (vt : List (List Nat)) (v : Nat)
    (hlen : vt.length = n) (hv : v < n) :
    ((if c < n then vt.set c (vt.getD c [] ++ [i]) else vt).getD v []).length =
      (vt.getD v []).length + (if c = v then 1 else 0) := by
  by_cases hc : c < n
  · rw [if_pos hc]
    by_cases hcv : c = v
    · subst hcv
      rw [getD_set_self _ _ _ _ (hlen ▸ hv), if_pos rfl, List.length_append,
        List.length_singleton]
    · rw [getD_set_diff _ _ _ _ _ hcv, if_neg hcv, Nat.add_zero]
  · rw [if_neg hc, if_neg (fun e => hc (by rw [e]; exact hv)), Nat.add_zero]

theorem buildVT_app1_len {n : Nat} (c i : Nat) (vt : List (List Nat)) :
    (if c < n then vt.set c (vt.getD c [] ++ [i]) else vt).length =
      vt.length := by
  split_ifs <;> simp

theorem buildVT_step_getD {n : Nat} (i : Nat) (tri : Tri)
    (vt : List (List Nat)) (v : Nat) (hlen : vt.length = n) (hv : v < n) :
    (((comps tri).foldl
      (fun vt c => if c < n then vt.set c (vt.getD c [] ++ [i]) else vt)
      vt).getD v []).length = (vt.getD v []).length + multN v tri := by
  unfold comps
  simp only [List.foldl_cons, List.foldl_nil]
  rw [buildVT_app1 _ _ _ _
      (by rw [buildVT_app1_len, buildVT_app1_len, hlen]) hv,
    buildVT_app1 _ _ _ _ (by rw [buildVT_app1_len, hlen]) hv,
    buildVT_app1 _ _ _ _ hlen hv]
  unfold multN
  omega

theorem buildVT_step_len {n : Nat} (i : Nat) (tri : Tri)
    (vt : List (List Nat)) :
    ((comps tri).foldl
      (fun vt c => if c < n then vt.set c (vt.getD c [] ++ [i]) else vt)
      vt).length = vt.length := by
  unfold comps
  simp only [List.foldl_cons, List.foldl_nil]
  rw [buildVT_app1_len, buildVT_app1_len, buildVT_app1_len]

theorem buildVT_go {n : Nat} : ∀ (l : List (Nat × Tri))
    (vt : List (List Nat)) (v : Nat), vt.length = n → v < n →
    ((l.foldl
      (fun vt p =>
        (comps p.2).foldl
          (fun vt c => if c < n then vt.set c (vt.getD c [] ++ [p.1]) else vt)
          vt)
      vt).getD v []).length =
      (vt.getD v []).length + (l.map (fun p => multN v p.2)).sum
  | [], vt, v, _, _ => by simp
  | p :: t, vt, v, hlen, hv => by
    rw [List.foldl_cons,
      buildVT_go t _ v (by rw [buildVT_step_len]; exact hlen) hv,
      buildVT_step_getD p.1 p.2 vt v hlen hv, List.map_cons, List.sum_cons]
    omega

theorem buildVT_go_len {n : Nat} (l : List (Nat × Tri))
    (vt : List (List Nat)) :
    (l.foldl
      (fun vt p =>
        (comps p.2).foldl
          (fun vt c => if c < n then vt.set c (vt.getD c [] ++ [p.1]) else vt)
          vt)
      vt).length = vt.length := by
  refine foldl_rec _ l (fun a => a.length = vt.length) vt rfl ?_
  intro a b _ h
  show ((comps b.2).foldl _ a).length = vt.length
  rw [buildVT_step_len]
  exact h

theorem buildVertTris_length (triangles : List Tri) (n : Nat) :
    (buildVertTris triangles n).length = n := by
  unfold buildVertTris
  rw [buildVT_go_len]
  simp

theorem buildVertTris_count (triangles : List Tri) (n v : Nat) (hv : v < n) :
    (((buildVertTris triangles n).getD v []).length : ℤ) =
      (triangles.map (fun tri => multZ v tri)).sum := by
  unfold buildVertTris
  rw [buildVT_go triangles.enum _ v (by simp) hv]
  have hrep : ((List.replicate n ([] : List Nat)).getD v []).length = 0 := by
    rw [List.getD_eq_getElem?_getD, List.getElem?_replicate_of_lt hv]
    rfl
  rw [hrep, Nat.zero_add]
  have hmap : triangles.enum.map (fun p => multN v p.2) =
      triangles.map (fun tri => multN v tri) := by
    have h2 : triangles.enum.map Prod.snd = triangles :=
      List.enumFrom_map_snd 0 triangles
    have h3 : triangles.enum.map (fun p => multN v p.2) =
        (triangles.enum.map Prod.snd).map (fun tri => multN v tri) := by
      rw [List.map_map]
      rfl
    rw [h3, h2]
  rw [hmap, Nat.cast_list_sum, List.map_map]
  congr 1
  exact List.map_congr_left fun tri _ => multN_cast v tri

theorem buildVertTris_mem (triangles : List Tri) (n : Nat) :
    ∀ v, ∀ ti ∈ (buildVertTris triangles n).getD v [],
      ti < triangles.length := by
  unfold buildVertTris
  refine foldl_rec _ triangles.enum
    (fun vt : List (List Nat) =>
      ∀ v, ∀ ti ∈ vt.getD v [], ti < triangles.length) _ ?_ ?_
  · intro v ti hti
    exfalso
    by_cases hv : v < n
    · rw [List.getD_eq_getElem?_getD, List.getElem?_replicate_of_lt hv] at hti
      simp at hti
    · rw [getD_oob _ _ _ (by simpa using not_lt.mp hv)] at hti
      simp at hti
  · intro vt p hp hvt
    have hp1 : p.1 < triangles.length := by
      obtain ⟨h, _⟩ :=
        List.getElem?_eq_some.mp (List.mem_enum_iff_getElem?.mp hp)
      exact h
    refine foldl_rec _ (comps p.2)
      (fun vt : List (List Nat) =>
        ∀ v, ∀ ti ∈ vt.getD v [], ti < triangles.length) vt hvt ?_
    intro a c _ ha v ti hti
    by_cases hcn : c < n
    · rw [if_pos hcn] at hti
      by_cases hcv : c = v
      · subst hcv
        by_cases hlen : c < a.length
        · rw [getD_set_self _ _ _ _ hlen] at hti
          rcases List.mem_append.mp hti with h | h
          · exact ha c ti h
          · rw [List.mem_singleton.mp h]; exact hp1
        · rw [List.set_eq_of_length_le (not_lt.mp hlen)] at hti
          exact ha c ti hti
      · rw [getD_set_diff _ _ _ _ _ hcv] at hti
        exact ha v ti hti
    · rw [if_neg hcn] at hti
      exact ha v ti hti

theorem initState_inv (triangles : List Tri) (n : Nat)
    (scoreFn : Int → Int → ℚ)
    (hscore : ∀ cp ac, 1 ≤ ac → 0 ≤ scoreFn cp ac)
    (htc : 1 ≤ triangles.length) :
    Inv triangles n
      (initState triangles n scoreFn (buildVertTris triangles n)) := by
  have hunem0 : unemL triangles.length
      (List.replicate triangles.length false) = List.range triangles.length := by
    unfold unemL
    rw [List.filter_eq_self]
    intro a ha
    simp [List.getD_eq_getElem?_getD,
      List.getElem?_replicate_of_lt (List.mem_range.mp ha)]
  have hrange_map : ∀ v, (List.range triangles.length).map
        (fun ti => multZ v (triangles.getD ti default)) =
      triangles.map (fun tri => multZ v tri) := by
    intro v
    have h3 : (List.range triangles.length).map
        (fun ti => multZ v (triangles.getD ti default)) =
        ((List.range triangles.length).map
          (fun i => triangles.getD i default)).map (fun tri => multZ v tri) := by
      rw [List.map_map]
      rfl
    rw [h3, map_getD_range]
  have hactI : ∀ v, v < n →
      (initState triangles n scoreFn
        (buildVertTris triangles n)).active_count.getD v 0 =
      ((unemL triangles.length
          (initState triangles n scoreFn
            (buildVertTris triangles n)).emitted).map
        (fun ti => multZ v (triangles.getD ti default))).sum := by
    intro v hv
    show ((buildVertTris triangles n).map
        (fun tl => (tl.length : ℤ))).getD v 0 =
      ((unemL triangles.length (List.replicate triangles.length false)).map
        (fun ti => multZ v (triangles.getD ti default))).sum
    rw [getD_map_lt _ _ _ _ []
        (by rw [buildVertTris_length]; exact hv),
      buildVertTris_count triangles n v hv, hunem0, hrange_map v]
  have hvsI : ∀ v, v < n →
      1 ≤ (initState triangles n scoreFn
        (buildVertTris triangles n)).active_count.getD v 0 →
      0 ≤ (initState triangles n scoreFn
        (buildVertTris triangles n)).scores.getD v 0 := by
    intro v hv h1
    show 0 ≤ ((List.range n).map
      (fun w => scoreFn (-1)
        (((buildVertTris triangles n).map
          (fun tl => (tl.length : ℤ))).getD w 0))).getD v 0
    rw [getD_range_map _ _ _ _ hv]
    exact hscore _ _ h1
  refine ⟨?_, ?_, ?_, ?_, ?_, ?_, ?_, ?_, ?_, hactI, hvsI, ?_⟩
  · show (List.replicate triangles.length false).length = triangles.length
    simp
  · show (triangles.map _).length = triangles.length
    simp
  · show ((buildVertTris triangles n).map
      (fun tl => (tl.length : ℤ))).length = n
    rw [List.length_map, buildVertTris_length]
  · show ((List.range n).map _).length = n
    simp
  · show ∀ v ∈ ([] : List Nat), v < n
    simp
  · show 0 = (List.replicate triangles.length false).count true
    rw [List.count_replicate]
    simp
  · exact (pyMaxRange_bound triangles.length _ htc).1
  · exact (pyMaxRange_bound triangles.length _ htc).2
  · show (([] : List Tri) ++
      (unemL triangles.length (List.replicate triangles.length false)).map
        (fun ti => triangles.getD ti default)).Perm triangles
    rw [hunem0, List.nil_append, map_getD_range triangles default]
  · intro ti hti hem
    show 0 ≤ (triangles.map
      (fun tri => triScore
        ((List.range n).map
          (fun w => scoreFn (-1)
            (((buildVertTris triangles n).map
              (fun tl => (tl.length : ℤ))).getD w 0))) n tri)).getD ti 0
    rw [getD_map_lt _ _ _ _ default hti]
    refine triScore_nonneg_of _
      (initState triangles n scoreFn
        (buildVertTris triangles n)).active_count n _ ?_ hvsI
    intro v hv hvc
    rw [hactI v hv]
    refine one_le_map_sum ?_ (fun x => multZ_nonneg v _) (one_le_multZ hvc)
    show ti ∈ unemL triangles.length (List.replicate triangles.length false)
    rw [hunem0]
    exact List.mem_range.mpr hti

/-- **C1.** For every triangle list and vertex count, and any per-vertex
score function that is nonnegative on vertices with at least one remaining
triangle (as Forsyth's `_vertex_score` is), `optimize_triangles` returns a
permutation of its input; and when the triangle count is at most 1 or the
vertex count is at most the cache size 32, the output equals the input in
the exact same order. -/
theorem c1_optimize_triangles_spec (scoreFn : Int → Int → ℚ)
    (triangles : List Tri) (vertex_count : Nat)
    (hscore : ∀ cp ac, 1 ≤ ac → 0 ≤ scoreFn cp ac) :
    (optimize_triangles scoreFn triangles vertex_count).Perm triangles ∧
    (triangles.length ≤ 1 ∨ vertex_count ≤ CACHE_SIZE →
      optimize_triangles scoreFn triangles vertex_count = triangles) := by
  constructor
  · unfold optimize_triangles
    by_cases hskip : triangles.length ≤ 1 ∨ vertex_count ≤ CACHE_SIZE
    · rw [if_pos hskip]
    · rw [if_neg hskip]
      push_neg at hskip
      have htc : 1 ≤ triangles.length := by omega
      have h0 : (initState triangles vertex_count scoreFn
          (buildVertTris triangles vertex_count)).emitted_count = 0 := rfl
      exact optLoop_perm triangles vertex_count scoreFn
        (buildVertTris triangles vertex_count) hscore
        (fun v ti hti => buildVertTris_mem triangles vertex_count v ti hti)
        triangles.length _
        (initState_inv triangles vertex_count scoreFn hscore htc)
        (by rw [h0]; omega)
  · intro h
    unfold optimize_triangles
    rw [if_pos h]

theorem c1_optimize_triangles_spec_witness :
    (optimize_triangles (fun _ _ => 0) [(0, 1, 2), (2, 1, 3)] 33).Perm
      [(0, 1, 2), (2, 1, 3)] ∧
    optimize_triangles (fun _ _ => 0) [(0, 1, 2)] 33 = [(0, 1, 2)] :=
  ⟨(c1_optimize_triangles_spec (fun _ _ => 0) [(0, 1, 2), (2, 1, 3)] 33
      fun _ _ _ => le_refl (0 : ℚ)).1,
   (c1_optimize_triangles_spec (fun _ _ => 0) [(0, 1, 2)] 33
      fun _ _ _ => le_refl (0 : ℚ)).2 (Or.inl (by norm_num))⟩

/-- The hypothesis of `c1_optimize_triangles_spec` holds for the source's
`_vertex_score`: for any model of `**` that is nonnegative (as real
exponentiation is on the arguments the code produces), a vertex with at
least one remaining triangle never scores below zero. -/
theorem _vertex_score_nonneg (powFn : ℚ → ℚ → ℚ)
    (hpow : ∀ x y, 0 ≤ powFn x y) (cp ac : Int) (hac : 1 ≤ ac) :
    0 ≤ _vertex_score powFn cp ac := by
  unfold _vertex_score
  rw [if_neg (by omega)]
  have h1 := hpow (1 - ((cp : ℚ) - 3) / ((CACHE_SIZE : ℚ) - 3)) (3 / 2)
  have h2 := hpow (ac : ℚ) (-(1 / 2))
  unfold _LAST_TRI_SCORE _VALENCE_BOOST_SCALE
  split_ifs <;> linarith

end Optimize
